import Mathlib

/-!
# Verification of the graphrs library

A shallow embedding, in Lean 4, of the graphrs repository: the B-tree node
operations (`src/graph/btree/node.rs`), the vertex/edge reference model and
path algebra (`src/graph/definitions/`), and the `WithOutgoing` graph
operations (`src/graph/mod.rs`, `src/graph/with_outgoing.rs`).

Modelling conventions:
* Rust `Vec<T>` becomes `List T`; `VecDeque<T>` becomes a `List T` kept
  front-to-back (`push_back` appends, `pop_front` takes the head,
  `pop_back`/`push_front` work at the corresponding ends).
* Fallible Rust functions returning `Result<T, Error>` become
  `Except Error T`.  A Rust panic (out-of-range slice index, `RefCell`
  double borrow, `expect` on `None`) is modelled by an outer `Option`
  layer: `none` is a panic, `some r` a normal return of `r`.
* The `Observer` weak references held inside an `Edge` always point to a
  vertex owned by the graph's index (vertices are never removed), so an
  edge is embedded as the pair of its endpoint ids together with its
  payload; `upgrade().unwrap().borrow().id` is the stored id.
* The `RefCell` borrow discipline of `add_edge` is made explicit with a
  list of currently mutably borrowed cells, keyed by vertex id (the index
  holds exactly one shared cell per id).
-/
namespace Graphrs

variable {E Id V K : Type}

/-- The error enum of `src/error.rs` (`&'static str` becomes `String`). -/
inductive Error where
  | KeyAlreadyExists
  | KeyWasNotFound
  | UnexpectedError
  | FileAlreadyExists
  | FileAlreadyOpened
  | IoError
  | FileDoesntExist
  | DirAlreadyExists
  | DirDoesntExist
  | PathDoesntExist
  | ErrorDeserializing
  | ErrorSerializing
  | OutOfBounds
  | VertexAlreadyExists
  | EdgeAlreadyExists
  | NullPointer
  | MismatchedVicinity
  | WithMessage (msg : String)
  deriving Repr, DecidableEq

/-- `Edge<V, E, Id>` of `src/graph/definitions/mod.rs`: a payload and two
back-references to the endpoint vertices, embedded as the endpoint ids
(the `V` parameter of the Rust type is phantom through the references). -/
structure Edge (E Id : Type) where
  info : E
  startId : Id
  endId : Id
  deriving Repr, DecidableEq

/-- `Edge::get_start_id`: resolve the start back-reference and read its id. -/
def Edge.get_start_id (e : Edge E Id) : Id := e.startId

/-- `Edge::get_end_id`: resolve the end back-reference and read its id. -/
def Edge.get_end_id (e : Edge E Id) : Id := e.endId

/-- `impl PartialEq for Edge` (`src/graph/definitions/mod.rs:141-161`):
two edges are equal iff their start ids and end ids agree; the payloads
are not inspected. -/
def Edge.eqIds [DecidableEq Id] (e₁ e₂ : Edge E Id) : Bool :=
  decide (e₁.get_start_id = e₂.get_start_id) && decide (e₁.get_end_id = e₂.get_end_id)

/-- `Path<V, E, Id>` of `src/graph/definitions/path.rs`: a sequence of edges. -/
structure Path (E Id : Type) where
  edges : List (Edge E Id)
  deriving Repr, DecidableEq

/-- `Path::start_with` (`path.rs:79-81`): `self.0.get(0).expect(...)` then
the start id; `none` models the panic on an empty path. -/
def Path.start_with (p : Path E Id) : Option Id :=
  (p.edges.get? 0).map Edge.get_start_id

/-- `Path::ends_with` (`path.rs:83-85`): the source reads `self.0.get(0)`
(the FIRST edge) and takes its end id; `none` models the panic on an
empty path. -/
def Path.ends_with (p : Path E Id) : Option Id :=
  (p.edges.get? 0).map Edge.get_end_id

/-- `Path::contains` (`path.rs:94-105`). -/
def Path.containsId [DecidableEq Id] (p : Path E Id) (id : Id) : Bool :=
  p.edges.any (fun e => decide (e.get_start_id = id) || decide (e.get_end_id = id))

/-- `impl PartialEq for Path` (`path.rs:139-153`): walk the zip of the two
edge lists and require pairwise edge equality; there is no length check. -/
def Path.peq [DecidableEq Id] (p q : Path E Id) : Bool :=
  (p.edges.zip q.edges).all (fun lr => Edge.eqIds lr.1 lr.2)

/-- `impl Add for Path` (`path.rs:163-196`): empty left operand returns the
right operand; otherwise the end id of the left operand's LAST edge is
compared with the start id of the right operand's LAST edge (the source
reads `rhs.0.last()`), concatenating on equality and returning the left
operand unchanged otherwise (also when the right operand is empty). -/
def Path.add [DecidableEq Id] (p q : Path E Id) : Path E Id :=
  if p.edges.isEmpty then q
  else
    match p.edges.getLast? with
    | none => p
    | some selfLast =>
      let selfEnd := selfLast.get_end_id
      match q.edges.getLast? with
      | none => p
      | some otherLast =>
        let otherStart := otherLast.get_start_id
        if selfEnd = otherStart then Path.mk (p.edges ++ q.edges) else p

/-- The scanning loop of `Path::subpath_between` (`path.rs:118-129`): for
each indexed edge, record `found.0`/`index_start` when its start id equals
`start` and `found.1`/`index_end` when its end id equals `end`; later
matches overwrite earlier ones.  The state is
`(found_start, found_end, index_start, index_end)`. -/
def subpathScan [DecidableEq Id] (edges : List (Edge E Id)) (start end_ : Id) :
    Bool × Bool × Nat × Nat :=
  (edges.enum.foldl
    (fun st ie =>
      let st₁ := if ie.2.get_start_id = start then (true, st.2.1, ie.1, st.2.2.2) else st
      if ie.2.get_end_id = end_ then (st₁.1, true, st₁.2.2.1, ie.1) else st₁)
    (false, false, 0, 0))

/-- `Path::subpath_between` (`path.rs:107-136`).  Empty paths fail with
`KeyWasNotFound`; then the ids from `start_with`/`ends_with` (both read
from the FIRST edge) are compared with the arguments and on full match a
copy of the path is returned; otherwise the scan runs and, when both an
edge starting at `start` and an edge ending at `end_` were found, the
slice `edges[index_start..=index_end]` is returned — a Rust operation
that panics (`none`) when `index_start > index_end + 1`. -/
def Path.subpath_between [DecidableEq Id] (p : Path E Id) (start end_ : Id) :
    Option (Except Error (Path E Id)) :=
  if p.edges.isEmpty then some (Except.error Error.KeyWasNotFound)
  else
    match p.start_with, p.ends_with with
    | some absStart, some absEnd =>
      if absStart = start ∧ absEnd = end_ then some (Except.ok (Path.mk p.edges))
      else
        match subpathScan p.edges start end_ with
        | (true, true, indexStart, indexEnd) =>
          if indexStart ≤ indexEnd + 1 then
            some (Except.ok (Path.mk ((p.edges.drop indexStart).take (indexEnd + 1 - indexStart))))
          else none
        | _ => some (Except.error Error.KeyWasNotFound)
    | _, _ => none

/-- `Paths<V, E, Id>` of `src/graph/definitions/path.rs`. -/
structure Paths (E Id : Type) where
  paths : List (Path E Id)
  deriving Repr, DecidableEq

/-- `impl Add for Paths` (`path.rs:246-269`): empty operands are identities,
otherwise the cartesian product of the two path lists is concatenated
pairwise via `Path.add`. -/
def Paths.add [DecidableEq Id] (ps qs : Paths E Id) : Paths E Id :=
  if ps.paths.isEmpty then qs
  else if qs.paths.isEmpty then ps
  else
    Paths.mk (((ps.paths.map (fun l => qs.paths.map (fun r => Path.add l r))).flatten))

/-! ## Concrete fixtures used by witnesses and counterexamples -/
/-- An edge `A → B` over ids `0`, `1` with a unit payload. -/
def edgeAB : Edge Unit Nat := ⟨(), 0, 1⟩

/-- An edge `B → C` over ids `1`, `2`. -/
def edgeBC : Edge Unit Nat := ⟨(), 1, 2⟩

/-- An edge `C → D` over ids `2`, `3`. -/
def edgeCD : Edge Unit Nat := ⟨(), 2, 3⟩

/-- An edge `B → A` over ids `1`, `0`. -/
def edgeBA : Edge Unit Nat := ⟨(), 1, 0⟩

/-- An edge `A → C` over ids `0`, `2`. -/
def edgeAC : Edge Unit Nat := ⟨(), 0, 2⟩

/-- An edge `B → D` over ids `1`, `3`. -/
def edgeBD : Edge Unit Nat := ⟨(), 1, 3⟩

/-! ## Specification-side helpers for the scan of `subpath_between` -/
/-- The position of the last edge satisfying `pred`, if any: the scan of
`subpath_between` overwrites earlier matches with later ones. -/
def lastMatchIdx (pred : Edge E Id → Bool) (edges : List (Edge E Id)) : Option Nat :=
  ((edges.enum.filter fun ie => pred ie.2).map (fun ie => ie.1)).getLast?

/-! ## The Ordered Index node (`src/graph/btree/node.rs`) -/
/-- `KeyValue<K, V>` of the index (its definition file `key_value.rs` is not
under `src/`; the shape is fixed by its uses in `node.rs`: fields `key` and
`value`). -/
structure KeyValue (K V : Type) where
  key : K
  value : V
  deriving Repr, DecidableEq

/-- `Node`/`NodeType` of `src/graph/btree/node.rs` (the Rust `Node` struct
only wraps the `NodeType` enum, so the two are flattened). -/
inductive Node (K V : Type) where
  | Internal : List (KeyValue K V) → List (Node K V) → Node K V
  | Leaf : List (KeyValue K V) → Node K V
  | Undefined : Node K V

/-- Rust `Vec::split_off(i)`: the vector keeps the first `i` elements and
the returned vector holds the rest; panics (`none`) when `i > len`. -/
def splitOff (i : Nat) (xs : List α) : Option (List α × List α) :=
  if i ≤ xs.length then some (xs.take i, xs.drop i) else none

/-- Rust `Vec::remove(i)`: removes and returns the element at `i`, shifting
the rest; panics (`none`) when `i ≥ len`. -/
def removeAt (i : Nat) (xs : List α) : Option (α × List α) :=
  if h : i < xs.length then some (xs.get ⟨i, h⟩, xs.eraseIdx i) else none

/-- `Node::split` (`node.rs:78-98`).  The Rust method mutates `self` and
returns `Split { pair, new_node }`; the embedding returns the triple
`(pair, mutated self, new_node)`.  An internal node splits its pairs at
`t-1`, removes the first element of the upper half as the median, and
splits its children at `t`; a leaf splits its pairs at `t` and removes
the element at `t-1` of the kept half as the median; an `Undefined` node
fails with `UnexpectedError`. -/
def Node.split : Node K V → Nat → Option (Except Error (KeyValue K V × Node K V × Node K V))
  | Node.Internal key_val_pairs children, t => do
    let (kept_pairs, sib) ← splitOff (t - 1) key_val_pairs
    let (median, sibling_pairs) ← removeAt 0 sib
    let (kept_children, sibling_children) ← splitOff t children
    some (Except.ok (median, Node.Internal kept_pairs kept_children,
      Node.Internal sibling_pairs sibling_children))
  | Node.Leaf key_val_pairs, t => do
    let (kept, sibling_pairs) ← splitOff t key_val_pairs
    let (median, kept_pairs) ← removeAt (t - 1) kept
    some (Except.ok (median, Node.Leaf kept_pairs, Node.Leaf sibling_pairs))
  | Node.Undefined, _ => some (Except.error Error.UnexpectedError)

/-- The position loop of `Node::into_vec` (`node.rs:56-65`): walking `res`
with a running index, `pos` is set to `idx + 1` at every element whose key
is below `key`, so later matches overwrite earlier ones. -/
def insertPosFold [LinearOrder K] (key : K) (res : List (K × V)) : Nat :=
  (res.foldl (fun pi rk => (if key > rk.1 then pi.2 + 1 else pi.1, pi.2 + 1)) (0, 0)).1

mutual

/-- `Node::into_vec` (`node.rs:43-76`): a leaf exports its pairs in list
order; an internal node exports every child (in order), concatenates the
results, and then inserts each of its own pairs at the position computed
by the `pos`/`idx` loop; `Undefined` panics (`none`), and a panic in any
child propagates. -/
def Node.into_vec [LinearOrder K] : Node K V → Option (List (K × V))
  | Node.Internal key_val children =>
    match intoVecChildren children with
    | none => none
    | some all_children =>
      let res := all_children.foldl (fun r child => r ++ child) []
      let to_be_inserted := key_val.map fun kv => (kv.key, kv.value)
      some (to_be_inserted.foldl
        (fun r kv => List.insertIdx (insertPosFold kv.1 r) kv r) res)
  | Node.Leaf keys => some (keys.map fun kv => (kv.key, kv.value))
  | Node.Undefined => none

/-- The `children.iter().map(|node| node.into_vec()).collect()` of
`Node::into_vec`, with panic propagation. -/
def intoVecChildren [LinearOrder K] : List (Node K V) → Option (List (List (K × V)))
  | [] => some []
  | n :: ns =>
    match n.into_vec, intoVecChildren ns with
    | some v, some vs => some (v :: vs)
    | _, _ => none

end

mutual

/-- Specification-side in-order sequence of the pairs stored in a tree:
children and own pairs interleaved in key order (`c₀ kv₀ c₁ kv₁ … cₙ`). -/
def Node.inOrderPairs : Node K V → List (KeyValue K V)
  | Node.Internal kvs children => interleavePairs kvs children
  | Node.Leaf kvs => kvs
  | Node.Undefined => []

/-- Interleaving helper for `Node.inOrderPairs`. -/
def interleavePairs : List (KeyValue K V) → List (Node K V) → List (KeyValue K V)
  | kvs, [] => kvs
  | [], c :: cs => c.inOrderPairs ++ interleavePairs [] cs
  | kv :: kvt, c :: cs => c.inOrderPairs ++ kv :: interleavePairs kvt cs

end

mutual

/-- Specification-side predicate: the tree contains no `Undefined` node. -/
def Node.definedTree : Node K V → Bool
  | Node.Internal _ children => definedForest children
  | Node.Leaf _ => true
  | Node.Undefined => false

/-- `Node.definedTree` on a list of children. -/
def definedForest : List (Node K V) → Bool
  | [] => true
  | n :: ns => n.definedTree && definedForest ns

end

/-! ## The graph reference model (`src/graph/mod.rs`, `definitions/mod.rs`) -/
/-- Modelled from the spec: the Ordered Index `BTree<Id, T>` backing
`Graph.vertices` (its implementation, `btree/mod.rs` and `key_value.rs`,
is not under `src/`).  Per the spec it maps unique keys to values with
`insert` (fails `KeyAlreadyExists` on a duplicate), `search` (value or
`KeyWasNotFound`), `contains` (never fails), and ordered export.  It is
embedded as an association list; each entry stands for the single shared
`Rc<RefCell<…>>` cell the index owns for that key. -/
structure Index (Id α : Type) where
  entries : List (Id × α)

/-- Modelled from the spec: `contains(key)` → boolean, never fails. -/
def Index.containsKey [DecidableEq Id] (idx : Index Id α) (id : Id) : Bool :=
  idx.entries.any (fun e => e.1 = id)

/-- Modelled from the spec: `search(key)` → value or `KeyWasNotFound`. -/
def Index.search [DecidableEq Id] (idx : Index Id α) (id : Id) : Except Error α :=
  match idx.entries.find? (fun e => e.1 = id) with
  | some e => Except.ok e.2
  | none => Except.error Error.KeyWasNotFound

/-- Modelled from the spec: `insert(key, value)`, failing with
`KeyAlreadyExists` when the key is present. -/
def Index.insertKey [DecidableEq Id] (idx : Index Id α) (id : Id) (a : α) :
    Except Error (Index Id α) :=
  if idx.containsKey id then Except.error Error.KeyAlreadyExists
  else Except.ok (Index.mk (idx.entries ++ [(id, a)]))

/-- Writing through the shared cell of an existing key: the index structure
is unchanged, the stored value is replaced. -/
def Index.update [DecidableEq Id] (idx : Index Id α) (id : Id) (a : α) : Index Id α :=
  Index.mk (idx.entries.map (fun e => if e.1 = id then (id, a) else e))

/-- `Vicinity<V, E, Id>` of `src/graph/definitions/mod.rs:39-54` (the `V`
parameter is phantom through the edges' vertex references). -/
inductive Vicinity (E Id : Type) where
  | Outgoing (edges : Option (List (Edge E Id)))
  | Ingoing (edges : Option (List (Edge E Id)))
  | Both (ingoing_edges : Option (List (Edge E Id)))
      (outgoing_edges : Option (List (Edge E Id)))

/-- `Vertex<V, E, Id>` of `src/graph/definitions/mod.rs:65-73`. -/
structure Vertex (V E Id : Type) where
  id : Id
  info : V
  vicinity : Vicinity E Id

/-- `Graph<V, E, Id, S>` of `src/graph/mod.rs:15-24`; the capability
parameter `S` is phantom (`PhantomData`) and is tracked by which
operations are stated about the graph. -/
structure Graph (V E Id : Type) where
  vertices : Index Id (Vertex V E Id)

/-- `RefCell::borrow_mut` against a set of currently mutably borrowed
cells (keyed by vertex id — the index owns one cell per id): borrowing an
already borrowed cell panics (`none`). -/
def borrowMut [DecidableEq Id] (borrowed : List Id) (id : Id) : Option (List Id) :=
  if id ∈ borrowed then none else some (id :: borrowed)

/-- `Graph::<V, E, Id, WithOutgoing>::add_vertex`
(`src/graph/with_outgoing.rs:39-53`): a vicinity that is not
`Outgoing { .. }` fails with `MismatchedVicinity` before the duplicate
check; a present id fails with `VertexAlreadyExists`; otherwise the
vertex is inserted into the index. -/
def Graph.add_vertex [DecidableEq Id] (g : Graph V E Id) (id : Id) (info : V)
    (vicinity : Vicinity E Id) : Except Error (Graph V E Id) :=
  match vicinity with
  | Vicinity.Outgoing _ =>
    if g.vertices.containsKey id then Except.error Error.VertexAlreadyExists
    else
      match g.vertices.insertKey id (Vertex.mk id info vicinity) with
      | Except.ok vertices => Except.ok (Graph.mk vertices)
      | Except.error e => Except.error e
  | _ => Except.error Error.MismatchedVicinity

/-- `Graph::add_edge` (`src/graph/mod.rs:32-92`): absent endpoints fail
with `KeyWasNotFound`; then both vertex cells are borrowed mutably at the
same time (a self-loop panics, `none`); matching `Outgoing`/`Outgoing`
vicinities push the edge on the start vertex's outgoing list,
`Ingoing`/`Ingoing` on the end vertex's ingoing list, `Both`/`Both` on
both; any other combination fails with `MismatchedVicinity`. -/
def Graph.add_edge [DecidableEq Id] (g : Graph V E Id) (info : E) (start end_ : Id) :
    Option (Except Error (Graph V E Id)) :=
  if ¬ (g.vertices.containsKey start = true ∧ g.vertices.containsKey end_ = true) then
    some (Except.error Error.KeyWasNotFound)
  else
    match g.vertices.search start, g.vertices.search end_ with
    | Except.ok sv, Except.ok ev =>
      match borrowMut [] start with
      | none => none
      | some b₁ =>
        match borrowMut b₁ end_ with
        | none => none
        | some _ =>
          match sv.vicinity, ev.vicinity with
          | Vicinity.Outgoing edges, Vicinity.Outgoing _ =>
            let newEdges := match edges with
              | some es => es ++ [Edge.mk info start end_]
              | none => [Edge.mk info start end_]
            some (Except.ok (Graph.mk (g.vertices.update start
              (Vertex.mk sv.id sv.info (Vicinity.Outgoing (some newEdges))))))
          | Vicinity.Ingoing _, Vicinity.Ingoing edges =>
            let newEdges := match edges with
              | some es => es ++ [Edge.mk info start end_]
              | none => [Edge.mk info start end_]
            some (Except.ok (Graph.mk (g.vertices.update end_
              (Vertex.mk ev.id ev.info (Vicinity.Ingoing (some newEdges))))))
          | Vicinity.Both ingoing outgoing, Vicinity.Both ingoing₂ outgoing₂ =>
            let newOutgoing := match outgoing with
              | some es => es ++ [Edge.mk info start end_]
              | none => [Edge.mk info start end_]
            let newIngoing := match ingoing₂ with
              | some es => es ++ [Edge.mk info start end_]
              | none => [Edge.mk info start end_]
            some (Except.ok (Graph.mk ((g.vertices.update start
              (Vertex.mk sv.id sv.info (Vicinity.Both ingoing (some newOutgoing)))).update end_
              (Vertex.mk ev.id ev.info (Vicinity.Both (some newIngoing) outgoing₂)))))
          | _, _ => some (Except.error Error.MismatchedVicinity)
    | _, _ => some (Except.error Error.KeyWasNotFound)

/-! ## The traversal engine (`src/graph/with_outgoing.rs:64-132`) -/
/-- The ids pushed on the frontier for a vertex: the traversal's
`if let Vicinity::Outgoing { edges: Some(edges) }` loop resolves each
edge's end reference to its id (`edge.end.0.upgrade()…borrow().id`; the
upgrade cannot fail because vertices are never removed); any other
vicinity shape pushes nothing. -/
def Vertex.outgoingIds (v : Vertex V E Id) : List Id :=
  match v.vicinity with
  | Vicinity.Outgoing (some edges) => edges.map Edge.get_end_id
  | _ => []

/-- The ids of the keys stored in the graph's index. -/
def Graph.idList (g : Graph V E Id) : List Id :=
  g.vertices.entries.map Prod.fst

/-- The outgoing-adjacency ids of `id` in `g` (empty when absent). -/
def Graph.neighborsOf [DecidableEq Id] (g : Graph V E Id) (id : Id) : List Id :=
  match g.vertices.search id with
  | Except.ok v => v.outgoingIds
  | Except.error _ => []

/-- One outgoing step between ids of `g`. -/
def Graph.stepRel [DecidableEq Id] (g : Graph V E Id) (a b : Id) : Prop :=
  b ∈ g.neighborsOf a

/-- Reachability along outgoing adjacency lists. -/
def Graph.ReachableFrom [DecidableEq Id] (g : Graph V E Id) (s t : Id) : Prop :=
  Relation.ReflTransGen g.stepRel s t

/-- `Graph::breadth_first_traversal` loop
(`src/graph/with_outgoing.rs:99-132`), with the `discovered` vector and
FIFO frontier made explicit: pop the front id; skip it when already
discovered; otherwise mark it, fold its mapped value into the
accumulator, and push its outgoing neighbor ids at the back.  Returns
the accumulator together with the final `discovered` list (the vertices
`map` was applied to, in order). -/
def Graph.bfsAux [DecidableEq Id] [Add R] (g : Graph V E Id) (map : Vertex V E Id → R)
    (acc : R) (discovered queue : List Id) : Except Error (R × List Id) :=
  match queue with
  | [] => Except.ok (acc, discovered)
  | id :: rest =>
    if id ∈ discovered then Graph.bfsAux g map acc discovered rest
    else
      match hs : g.vertices.search id with
      | Except.error e => Except.error e
      | Except.ok vertex =>
        Graph.bfsAux g map (acc + map vertex) (discovered ++ [id])
          (rest ++ vertex.outgoingIds)
termination_by
  ((g.idList.filter fun i => decide (¬ i ∈ discovered)).length, queue.length)
decreasing_by
  · apply Prod.Lex.right
    simp
  · apply Prod.Lex.left
    have hnotd : ¬ id ∈ discovered := by assumption
    have hmemid : id ∈ g.idList := by
      unfold Index.search at hs
      rcases hf : g.vertices.entries.find? (fun e => decide (e.1 = id)) with _ | e
      · rw [hf] at hs
        exact absurd hs (by simp)
      · have hmem := List.mem_of_find?_eq_some hf
        have hpred := List.find?_some hf
        have he1 : e.1 = id := by simpa using hpred
        subst he1
        exact List.mem_map_of_mem Prod.fst hmem
    have hsub : (g.idList.filter fun i => decide (¬ i ∈ discovered ++ [id])).Sublist
        (g.idList.filter fun i => decide (¬ i ∈ discovered)) := by
      refine List.monotone_filter_right _ ?_
      intro a ha
      simp only [decide_eq_true_eq, List.mem_append] at ha ⊢
      exact fun h2 => ha (Or.inl h2)
    have hidf : id ∈ g.idList.filter (fun i => decide (¬ i ∈ discovered)) :=
      List.mem_filter.mpr ⟨hmemid, by simpa using hnotd⟩
    have hne : (g.idList.filter fun i => decide (¬ i ∈ discovered ++ [id]))
        ≠ (g.idList.filter fun i => decide (¬ i ∈ discovered)) := by
      intro he
      rw [← he] at hidf
      have h2 := (List.mem_filter.mp hidf).2
      simp at h2
    exact Nat.lt_of_le_of_ne hsub.length_le (fun he2 => hne (hsub.eq_of_length he2))

/-- `Graph::depth_first_traversal` loop
(`src/graph/with_outgoing.rs:64-97`): identical to the breadth-first
loop but popping from the back of the frontier (LIFO). -/
def Graph.dfsAux [DecidableEq Id] [Add R] (g : Graph V E Id) (map : Vertex V E Id → R)
    (acc : R) (discovered stack : List Id) : Except Error (R × List Id) :=
  match hq : stack.getLast? with
  | none => Except.ok (acc, discovered)
  | some id =>
    if id ∈ discovered then Graph.dfsAux g map acc discovered stack.dropLast
    else
      match hs : g.vertices.search id with
      | Except.error e => Except.error e
      | Except.ok vertex =>
        Graph.dfsAux g map (acc + map vertex) (discovered ++ [id])
          (stack.dropLast ++ vertex.outgoingIds)
termination_by
  ((g.idList.filter fun i => decide (¬ i ∈ discovered)).length, stack.length)
decreasing_by
  · apply Prod.Lex.right
    have : stack ≠ [] := by
      intro h
      rw [h] at hq
      exact absurd hq (by simp)
    have := List.length_pos.mpr this
    simp [List.length_dropLast]
    omega
  · apply Prod.Lex.left
    have hnotd : ¬ id ∈ discovered := by assumption
    have hmemid : id ∈ g.idList := by
      unfold Index.search at hs
      rcases hf : g.vertices.entries.find? (fun e => decide (e.1 = id)) with _ | e
      · rw [hf] at hs
        exact absurd hs (by simp)
      · have hmem := List.mem_of_find?_eq_some hf
        have hpred := List.find?_some hf
        have he1 : e.1 = id := by simpa using hpred
        subst he1
        exact List.mem_map_of_mem Prod.fst hmem
    have hsub : (g.idList.filter fun i => decide (¬ i ∈ discovered ++ [id])).Sublist
        (g.idList.filter fun i => decide (¬ i ∈ discovered)) := by
      refine List.monotone_filter_right _ ?_
      intro a ha
      simp only [decide_eq_true_eq, List.mem_append] at ha ⊢
      exact fun h2 => ha (Or.inl h2)
    have hidf : id ∈ g.idList.filter (fun i => decide (¬ i ∈ discovered)) :=
      List.mem_filter.mpr ⟨hmemid, by simpa using hnotd⟩
    have hne : (g.idList.filter fun i => decide (¬ i ∈ discovered ++ [id]))
        ≠ (g.idList.filter fun i => decide (¬ i ∈ discovered)) := by
      intro he
      rw [← he] at hidf
      have h2 := (List.mem_filter.mp hidf).2
      simp at h2
    exact Nat.lt_of_le_of_ne hsub.length_le (fun he2 => hne (hsub.eq_of_length he2))

/-- `Graph::breadth_first_traversal` (`with_outgoing.rs:99-132`). -/
def Graph.breadth_first_traversal [DecidableEq Id] [Add R] (g : Graph V E Id)
    (initial_id : Id) (acc : R) (map : Vertex V E Id → R) : Except Error R :=
  (Graph.bfsAux g map acc [] [initial_id]).map Prod.fst

/-- `Graph::depth_first_traversal` (`with_outgoing.rs:64-97`). -/
def Graph.depth_first_traversal [DecidableEq Id] [Add R] (g : Graph V E Id)
    (initial_id : Id) (acc : R) (map : Vertex V E Id → R) : Except Error R :=
  (Graph.dfsAux g map acc [] [initial_id]).map Prod.fst

/-- The fold of the mapped vertex values over a visit order (the way the
traversals build their accumulator). -/
def Graph.foldVisit [DecidableEq Id] [Add R] (g : Graph V E Id) (map : Vertex V E Id → R)
    (acc : R) (ids : List Id) : R :=
  ids.foldl (fun a id =>
    match g.vertices.search id with
    | Except.ok v => a + map v
    | Except.error _ => a) acc

/-- First-occurrence order of the not-yet-discovered ids in a list: the
order in which a FIFO frontier holding these ids visits them. -/
def newOnes [DecidableEq Id] : List Id → List Id → List Id
  | [], _ => []
  | id :: rest, discovered =>
    if id ∈ discovered then newOnes rest discovered
    else id :: newOnes rest (discovered ++ [id])

/-- The spec's example graph: vertices `{A, B, C}` as ids `{0, 1, 2}` with
edges `A→B`, `A→C`, `B→C` (outgoing capability). -/
def exampleGraph : Graph Unit Unit Nat :=
  Graph.mk (Index.mk [
    (0, Vertex.mk 0 () (Vicinity.Outgoing (some [Edge.mk () 0 1, Edge.mk () 0 2]))),
    (1, Vertex.mk 1 () (Vicinity.Outgoing (some [Edge.mk () 1 2]))),
    (2, Vertex.mk 2 () (Vicinity.Outgoing none))])

/-! ## Topological sort (`src/graph/with_outgoing.rs:362-461`) -/
/-- `Mark<Id>` of `src/graph/with_outgoing.rs:22-30`. -/
inductive Mark (Id : Type) where
  | Permanent (id : Id)
  | Temporary (id : Id)
  | Unmarked (id : Id)
  deriving Repr, DecidableEq

/-- The id carried by a mark (each `match` arm of the position scan reads
the same field). -/
def Mark.markedId : Mark Id → Id
  | Mark.Permanent id => id
  | Mark.Temporary id => id
  | Mark.Unmarked id => id

/-- The ids of a mark list. -/
def marksIds (marks : List (Mark Id)) : List Id :=
  marks.map Mark.markedId

/-- The position scan of `visit_node` (`with_outgoing.rs:408-429`): `pos`
starts at `marks.len()` and is overwritten with the running index at
every mark whose id equals `v_id` (all three match arms behave alike), so
the LAST matching index wins. -/
def markPos [DecidableEq Id] (marks : List (Mark Id)) (v_id : Id) : Nat :=
  (marks.foldl
    (fun pi mark => (if mark.markedId = v_id then pi.2 else pi.1, pi.2 + 1))
    (marks.length, 0)).1

mutual

/-- `Graph::visit_node` (`with_outgoing.rs:396-461`): find (or append as
`Unmarked`) the mark of the vertex; `Permanent` returns at once,
`Temporary` fails with the cycle message, `Unmarked` marks `Temporary`,
recursively visits every outgoing edge target, marks `Permanent` and
prepends the id to the dependency sequence; a non-outgoing vicinity
fails with `MismatchedVicinity`.  `fuel` bounds the recursion depth
(`none` = exhausted; the driver always supplies enough, as proved
below); the dangling-reference error of the source
(`upgrade().ok_or(NullPointer)`) maps to a failed index lookup. -/
def Graph.visit_node [DecidableEq Id] (g : Graph V E Id) :
    Nat → Vertex V E Id → List (Mark Id) → List Id →
      Option (Except Error (List (Mark Id) × List Id))
  | 0, _, _, _ => none
  | fuel + 1, v, marks, deps =>
    let v_id := v.id
    let pos := markPos marks v_id
    let marks := if pos = marks.length then marks ++ [Mark.Unmarked v_id] else marks
    match marks.get? pos with
    | none => none
    | some (Mark.Permanent _) => some (Except.ok (marks, deps))
    | some (Mark.Temporary _) =>
      some (Except.error (Error.WithMessage "Graph contains cycle"))
    | some (Mark.Unmarked id) =>
      match v.vicinity with
      | Vicinity.Outgoing (some edges) =>
        match g.visit_edges fuel edges (marks.set pos (Mark.Temporary id)) deps with
        | none => none
        | some (Except.error e) => some (Except.error e)
        | some (Except.ok (marks', deps')) =>
          some (Except.ok (marks'.set pos (Mark.Permanent id), id :: deps'))
      | Vicinity.Outgoing none =>
        some (Except.ok (marks.set pos (Mark.Permanent id), id :: deps))
      | _ => some (Except.error Error.MismatchedVicinity)

/-- The `for edge in edges` loop of the `Unmarked` branch of `visit_node`:
resolve each edge's end vertex (a failed resolution is `NullPointer`) and
visit it, threading marks and dependencies and propagating failures. -/
def Graph.visit_edges [DecidableEq Id] (g : Graph V E Id) :
    Nat → List (Edge E Id) → List (Mark Id) → List Id →
      Option (Except Error (List (Mark Id) × List Id))
  | _, [], marks, deps => some (Except.ok (marks, deps))
  | fuel, edge :: rest, marks, deps =>
    match g.vertices.search edge.get_end_id with
    | Except.error _ => some (Except.error Error.NullPointer)
    | Except.ok w =>
      match g.visit_node fuel w marks deps with
      | none => none
      | some (Except.error e) => some (Except.error e)
      | some (Except.ok (marks', deps')) => g.visit_edges fuel rest marks' deps'

end

/-- The `all_marks_are_permanent` closure of `topological_sort`
(`with_outgoing.rs:370-379`): a fold whose accumulator turns `false` at
any non-permanent mark. -/
def all_marks_are_permanent (marks : List (Mark Id)) : Bool :=
  marks.foldl
    (fun acc mark =>
      match mark with
      | Mark.Permanent _ => acc
      | _ => false)
    true

/-- The `first_unmarked` closure (`with_outgoing.rs:380-387`): the id of
the first `Unmarked` mark; `none` models the panic when none exists. -/
def first_unmarked : List (Mark Id) → Option Id
  | [] => none
  | Mark.Unmarked id :: _ => some id
  | _ :: rest => first_unmarked rest

/-- The `while !all_marks_are_permanent` loop of `topological_sort`
(`with_outgoing.rs:388-392`), with an iteration bound (`none` =
exhausted; the supplied bound is proved sufficient below). -/
def Graph.topoLoop [DecidableEq Id] (g : Graph V E Id) :
    Nat → List (Mark Id) → List Id → Option (Except Error (List Id))
  | 0, _, _ => none
  | fuel + 1, marks, deps =>
    if all_marks_are_permanent marks then some (Except.ok deps)
    else
      match first_unmarked marks with
      | none => none
      | some unmarked_id =>
        match g.vertices.search unmarked_id with
        | Except.error e => some (Except.error e)
        | Except.ok vertex =>
          match g.visit_node (g.idList.length + 1) vertex marks deps with
          | none => none
          | some (Except.error e) => some (Except.error e)
          | some (Except.ok (marks', deps')) => g.topoLoop fuel marks' deps'

/-- `Graph::topological_sort` (`with_outgoing.rs:362-394`): seed the marks
with `Unmarked(start_id)`, loop until every mark is permanent, and return
the dependency sequence front-to-back. -/
def Graph.topological_sort [DecidableEq Id] (g : Graph V E Id) (start_id : Id) :
    Option (Except Error (List Id)) :=
  g.topoLoop (g.idList.length + 1) [Mark.Unmarked start_id] []

/-- The position of the last element satisfying `p`, if any. -/
def lastIdxWhere (p : α → Bool) (l : List α) : Option Nat :=
  ((l.enum.filter fun ie => p ie.2).map (fun ie => ie.1)).getLast?

/-- Structural invariant of the mark list: one mark per id, and every
marked id is a key of the graph's index. -/
def MarksInv [DecidableEq Id] (g : Graph V E Id) (marks : List (Mark Id)) : Prop :=
  (marksIds marks).Nodup ∧ ∀ id ∈ marksIds marks, id ∈ g.idList

/-- Semantic invariant tying marks to the dependency list: the permanently
marked ids are exactly the output ids, the output has no duplicates, and
every output id's outgoing neighbors are output ids appearing strictly
later (the topological-order invariant of the front-prepended list). -/
def GOOD [DecidableEq Id] (g : Graph V E Id) (marks : List (Mark Id)) (deps : List Id) :
    Prop :=
  (∀ id, Mark.Permanent id ∈ marks ↔ id ∈ deps)
  ∧ deps.Nodup
  ∧ (∀ u ∈ deps, ∀ y ∈ g.neighborsOf u, y ∈ deps ∧ deps.indexOf u < deps.indexOf y)

/-- The number of graph ids not yet marked `Temporary` or `Permanent`: the
bound on the remaining recursion depth of `visit_node`. -/
def UCount [DecidableEq Id] (g : Graph V E Id) (marks : List (Mark Id)) : Nat :=
  (g.idList.filter fun i =>
    decide (¬ (Mark.Temporary i ∈ marks ∨ Mark.Permanent i ∈ marks))).length

/-- What a successful `visit_node`/`visit_edges` call guarantees about its
final state relative to its initial one. -/
def VisitConcl [DecidableEq Id] (g : Graph V E Id) (marks : List (Mark Id)) (deps : List Id)
    (marks' : List (Mark Id)) (deps' : List Id) : Prop :=
  MarksInv g marks' ∧ GOOD g marks' deps'
  ∧ (∀ id, Mark.Permanent id ∈ marks → Mark.Permanent id ∈ marks')
  ∧ (∀ id, Mark.Temporary id ∈ marks' ↔ Mark.Temporary id ∈ marks)
  ∧ (∀ mk ∈ marks', mk ∈ marks ∨ ∃ id2, mk = Mark.Permanent id2)
  ∧ (∃ newIds, marksIds marks' = marksIds marks ++ newIds)
  ∧ (∃ pre, deps' = pre ++ deps)
  ∧ UCount g marks' ≤ UCount g marks

/-- The spec's cycle example: vertices `{A, B, C}` as ids `{0, 1, 2}` with
edges `A→B`, `B→C` and the cycle-closing edge `C→A`. -/
def cycleGraph : Graph Unit Unit Nat :=
  Graph.mk (Index.mk [
    (0, Vertex.mk 0 () (Vicinity.Outgoing (some [Edge.mk () 0 1]))),
    (1, Vertex.mk 1 () (Vicinity.Outgoing (some [Edge.mk () 1 2]))),
    (2, Vertex.mk 2 () (Vicinity.Outgoing (some [Edge.mk () 2 0])))])

theorem lastMatchIdx_concat (pred : Edge E Id → Bool) (edges : List (Edge E Id))
    (x : Edge E Id) :
    lastMatchIdx pred (edges ++ [x]) =
      if pred x then some edges.length else lastMatchIdx pred edges := by
  unfold lastMatchIdx
  rw [List.enum_append]
  simp only [List.enumFrom_singleton, List.filter_append]
  by_cases hx : pred x
  · simp [hx, List.getLast?_concat]
  · simp [hx]

/-- The scanning loop of `subpath_between`, characterised: the two flags
record whether some edge starts at `start` (ends at `end_`), and the two
indices are the positions of the last such edges (`0` when none exists). -/
theorem subpathScan_eq [DecidableEq Id] (edges : List (Edge E Id)) (start end_ : Id) :
    subpathScan edges start end_ =
      (edges.any (fun ed => decide (ed.get_start_id = start)),
       edges.any (fun ed => decide (ed.get_end_id = end_)),
       (lastMatchIdx (fun ed => decide (ed.get_start_id = start)) edges).getD 0,
       (lastMatchIdx (fun ed => decide (ed.get_end_id = end_)) edges).getD 0) := by
  induction edges using List.reverseRecOn with
  | nil => rfl
  | append_singleton l x ih =>
    unfold subpathScan at ih ⊢
    rw [List.enum_append, List.foldl_append]
    rw [show (List.enumFrom l.length [x]) = [(l.length, x)] from List.enumFrom_singleton ..]
    rw [ih]
    simp only [List.foldl_cons, List.foldl_nil, List.any_append, List.any_cons, List.any_nil,
      lastMatchIdx_concat]
    by_cases hs : x.get_start_id = start <;> by_cases he : x.get_end_id = end_ <;>
      simp [hs, he]

theorem lastMatchIdx_eq_none (pred : Edge E Id → Bool) (edges : List (Edge E Id)) :
    lastMatchIdx pred edges = none ↔ edges.any pred = false := by
  induction edges using List.reverseRecOn with
  | nil => simp [lastMatchIdx]
  | append_singleton l x ih =>
    rw [lastMatchIdx_concat]
    by_cases hx : pred x <;> simp [hx, ih]

/-! ## Claim theorems for the path algebra -/
/-- C3: the claim predicts that `[A→B] + [B→C, C→D]` concatenates, because
`p` is non-empty, `q` is non-empty, and the end id of `p` (`1`) equals the
start id of `q` (the start of its first edge, `1`).  The code instead
compares against the start id of `q`'s LAST edge (`2`) and silently
returns the left operand. -/
theorem path_add_drops_adjacent_right_operand :
    Path.add (Path.mk [edgeAB]) (Path.mk [edgeBC, edgeCD]) = Path.mk [edgeAB]
    ∧ (Path.mk [edgeBC, edgeCD] : Path Unit Nat).start_with = some 1
    ∧ (Path.mk [edgeAB] : Path Unit Nat).edges.getLast?.map Edge.get_end_id = some 1
    ∧ Path.mk [edgeAB] ≠ Path.mk ([edgeAB] ++ [edgeBC, edgeCD]) := by
  refine ⟨by decide, by decide, by decide, by decide⟩

/-- C5: on the walk `[A→B, B→C]`, `start_with` correctly returns the first
edge's start id `0`, but `ends_with` returns `1` — the end id of the FIRST
edge (the source reads `self.0.get(0)`) — although the last edge's end id
is `2`. -/
theorem ends_with_reads_first_edge :
    (Path.mk [edgeAB, edgeBC] : Path Unit Nat).start_with = some 0
    ∧ (Path.mk [edgeAB, edgeBC] : Path Unit Nat).ends_with = some 1
    ∧ (Path.mk [edgeAB, edgeBC] : Path Unit Nat).edges.getLast?.map Edge.get_end_id
        = some 2 := by
  refine ⟨by decide, by decide, by decide⟩

/-- C4 counterexample: on the path `[A→B, B→A, A→C]` with `start = A` and
`end = C`, the first edge starting at `A` is at index `0` and the first
edge ending at `C` is at index `2`, so the claim predicts the whole path;
the code scans for the LAST matches (both at index `2`) and returns the
single-edge path `[A→C]`. -/
theorem subpath_between_first_match_counterexample :
    Path.subpath_between (Path.mk [edgeAB, edgeBA, edgeAC]) 0 2
      = some (Except.ok (Path.mk [edgeAC]))
    ∧ (Path.mk [edgeAC] : Path Unit Nat) ≠ Path.mk [edgeAB, edgeBA, edgeAC] := by
  refine ⟨by rfl, by decide⟩

/-- C4 amended: `subpath_between` on the empty path fails with
`KeyWasNotFound`; on a non-empty path whose FIRST edge has start id
`start` and end id `end_` it returns a copy of the whole path; otherwise
it locates the LAST edge whose start id is `start` and the LAST edge
whose end id is `end_`: if either is missing it fails with
`KeyWasNotFound`, and if both exist at positions `i` and `j` it returns
the inclusive slice `edges[i..=j]` when `i ≤ j + 1` (possibly empty) and
panics when `i > j + 1`. -/
theorem subpath_between_characterisation [DecidableEq Id] (p : Path E Id) (start end_ : Id) :
    (p.edges = [] → p.subpath_between start end_ = some (Except.error Error.KeyWasNotFound))
    ∧ ∀ e₀ rest, p.edges = e₀ :: rest →
      ((e₀.get_start_id = start ∧ e₀.get_end_id = end_) →
          p.subpath_between start end_ = some (Except.ok p))
      ∧ (¬ (e₀.get_start_id = start ∧ e₀.get_end_id = end_) →
          ((lastMatchIdx (fun ed => decide (ed.get_start_id = start)) p.edges = none
              ∨ lastMatchIdx (fun ed => decide (ed.get_end_id = end_)) p.edges = none) →
            p.subpath_between start end_ = some (Except.error Error.KeyWasNotFound))
          ∧ ∀ i j,
              lastMatchIdx (fun ed => decide (ed.get_start_id = start)) p.edges = some i →
              lastMatchIdx (fun ed => decide (ed.get_end_id = end_)) p.edges = some j →
              (i ≤ j + 1 →
                p.subpath_between start end_ =
                  some (Except.ok (Path.mk ((p.edges.drop i).take (j + 1 - i)))))
              ∧ (j + 1 < i → p.subpath_between start end_ = none)) := by
  constructor
  · intro h
    simp [Path.subpath_between, h]
  · intro e₀ rest hcons
    have hne : p.edges.isEmpty = false := by simp [hcons]
    have hsw : p.start_with = some e₀.get_start_id := by
      simp [Path.start_with, hcons]
    have hew : p.ends_with = some e₀.get_end_id := by
      simp [Path.ends_with, hcons]
    constructor
    · intro hfast
      have : Path.mk p.edges = p := rfl
      simp [Path.subpath_between, hne, hsw, hew, hfast, this]
    · intro hslow
      constructor
      · rintro (hnone | hnone)
        · have hany := (lastMatchIdx_eq_none _ _).mp hnone
          simp [Path.subpath_between, hne, hsw, hew, hslow, subpathScan_eq, hany, hnone]
        · have hany := (lastMatchIdx_eq_none _ _).mp hnone
          simp [Path.subpath_between, hne, hsw, hew, hslow, subpathScan_eq, hany, hnone]
      · intro i j hi hj
        have hanyS : p.edges.any (fun ed => decide (ed.get_start_id = start)) = true := by
          rcases h : p.edges.any (fun ed => decide (ed.get_start_id = start)) with _ | _
          · exact absurd ((lastMatchIdx_eq_none _ _).mpr h) (by simp [hi])
          · rfl
        have hanyE : p.edges.any (fun ed => decide (ed.get_end_id = end_)) = true := by
          rcases h : p.edges.any (fun ed => decide (ed.get_end_id = end_)) with _ | _
          · exact absurd ((lastMatchIdx_eq_none _ _).mpr h) (by simp [hj])
          · rfl
        constructor
        · intro hle
          simp [Path.subpath_between, hne, hsw, hew, hslow, subpathScan_eq, hanyS, hanyE,
            hi, hj, hle]
        · intro hlt
          simp [Path.subpath_between, hne, hsw, hew, hslow, subpathScan_eq, hanyS, hanyE,
            hi, hj, Nat.not_le_of_lt hlt, Nat.lt_irrefl]

/-- C4 witness: the characterisation applied to the concrete path
`[A→B, B→A, A→C]` with `start = 0`, `end = 2` (last matches both at
index `2`). -/
theorem subpath_between_characterisation_witness :
    Path.subpath_between (Path.mk [edgeAB, edgeBA, edgeAC]) 0 2
      = some (Except.ok (Path.mk (((Path.mk [edgeAB, edgeBA, edgeAC]).edges.drop 2).take
          (2 + 1 - 2)))) :=
  ((((subpath_between_characterisation (Path.mk [edgeAB, edgeBA, edgeAC]) 0 2).2
      edgeAB [edgeBA, edgeAC] rfl).2 (by decide)).2 2 2 (by decide) (by decide)).1
    (by decide)

theorem edge_eqIds_refl [DecidableEq Id] (e : Edge E Id) : Edge.eqIds e e = true := by
  simp [Edge.eqIds]

theorem edge_eqIds_symm [DecidableEq Id] (e₁ e₂ : Edge E Id) :
    Edge.eqIds e₁ e₂ = Edge.eqIds e₂ e₁ := by
  simp only [Edge.eqIds]
  by_cases h₁ : e₁.get_start_id = e₂.get_start_id <;>
    by_cases h₂ : e₁.get_end_id = e₂.get_end_id <;>
      simp [h₁, h₂, eq_comm]

theorem zip_self_append (l ext : List α) : l.zip (l ++ ext) = l.zip l := by
  induction l with
  | nil => rfl
  | cons a t ih => simp [ih]

theorem all_eqIds_zip_self [DecidableEq Id] (l : List (Edge E Id)) :
    ((l.zip l).all fun lr => Edge.eqIds lr.1 lr.2) = true := by
  induction l with
  | nil => rfl
  | cons a t ih => simp [ih, edge_eqIds_refl]

theorem all_eqIds_zip_comm [DecidableEq Id] (l₁ l₂ : List (Edge E Id)) :
    ((l₁.zip l₂).all fun lr => Edge.eqIds lr.1 lr.2)
      = ((l₂.zip l₁).all fun lr => Edge.eqIds lr.1 lr.2) := by
  induction l₁ generalizing l₂ with
  | nil => cases l₂ <;> rfl
  | cons a t ih =>
    cases l₂ with
    | nil => rfl
    | cons b t₂ => simp [ih, edge_eqIds_symm a b]

/-- C10: `Path` equality walks the zip of the two edge lists (so every path
compares equal to every extension of itself), compares edges only by their
endpoint ids (so it is invariant under any change of the edge payloads),
and is reflexive and symmetric but not transitive. -/
theorem path_partial_eq_props (E Id : Type) [DecidableEq Id] :
    (∀ p q : Path E Id, Path.peq p (Path.mk (p.edges ++ q.edges)) = true)
    ∧ (∀ p : Path E Id, Path.peq p p = true)
    ∧ (∀ p q : Path E Id, Path.peq p q = Path.peq q p)
    ∧ (∀ (E₂ : Type) (p q : Path E Id) (f g : E → E₂),
        Path.peq (Path.mk (p.edges.map fun e => Edge.mk (f e.info) e.startId e.endId))
            (Path.mk (q.edges.map fun e => Edge.mk (g e.info) e.startId e.endId))
          = Path.peq p q)
    ∧ ¬ (∀ p q r : Path Unit Nat,
          Path.peq p q = true → Path.peq q r = true → Path.peq p r = true) := by
  refine ⟨?_, ?_, ?_, ?_, ?_⟩
  · intro p q
    simp [Path.peq, zip_self_append, all_eqIds_zip_self]
  · intro p
    simp [Path.peq, all_eqIds_zip_self]
  · intro p q
    simp [Path.peq, all_eqIds_zip_comm]
  · intro E₂ p q f g
    simp only [Path.peq, List.zip_map]
    generalize p.edges.zip q.edges = l
    induction l with
    | nil => rfl
    | cons a t ih =>
      simp only [List.map_cons, List.all_cons, ih]
      simp [Edge.eqIds, Edge.get_start_id, Edge.get_end_id, Prod.map]
  · intro h
    have := h (Path.mk [edgeAB, edgeBC]) (Path.mk [edgeAB]) (Path.mk [edgeAB, edgeBD])
      (by decide) (by decide)
    exact absurd this (by decide)

/-- C10 witness: the zip-based equality at concrete paths — `[A→B]` equals
its extension `[A→B, B→C]`. -/
theorem path_partial_eq_props_witness :
    Path.peq (Path.mk [edgeAB])
      (Path.mk ((Path.mk [edgeAB]).edges ++ (Path.mk [edgeBC]).edges)) = true :=
  (path_partial_eq_props Unit Nat).1 (Path.mk [edgeAB]) (Path.mk [edgeBC])

theorem eraseIdx_take_succ (l : List α) (i : Nat) :
    (l.take (i + 1)).eraseIdx i = l.take i := by
  induction l generalizing i with
  | nil => simp
  | cons a t ih =>
    cases i with
    | zero => simp
    | succ j => simp [List.take_succ_cons, List.eraseIdx_cons_succ, ih]

/-- C6: for a node holding `2t-1` pairs (and, for an internal node, the
`2t` children required by the branching invariant), `split(t)` promotes
the pair at index `t-1` as the median, keeps the first `t-1` pairs (and
first `t` children), and gives the new sibling the pairs from index `t`
up (and the children from index `t` up); on a leaf the pairs are divided
at index `t` with the pair at `t-1` promoted; on `Undefined` it fails
with `UnexpectedError`. -/
theorem node_split_characterisation (t : Nat) (pairs : List (KeyValue K V))
    (children : List (Node K V)) (ht : 1 ≤ t) (hp : pairs.length = 2 * t - 1)
    (hc : children.length = 2 * t) :
    (∃ median, pairs.get? (t - 1) = some median
      ∧ Node.split (Node.Internal pairs children) t
          = some (Except.ok (median,
              Node.Internal (pairs.take (t - 1)) (children.take t),
              Node.Internal (pairs.drop t) (children.drop t))))
    ∧ (∃ median, pairs.get? (t - 1) = some median
      ∧ Node.split (Node.Leaf pairs) t
          = some (Except.ok (median,
              Node.Leaf (pairs.take (t - 1)), Node.Leaf (pairs.drop t))))
    ∧ Node.split (Node.Undefined : Node K V) t
        = some (Except.error Error.UnexpectedError) := by
  have hlt : t - 1 < pairs.length := by omega
  refine ⟨⟨pairs.get ⟨t - 1, hlt⟩, ?_, ?_⟩, ⟨pairs.get ⟨t - 1, hlt⟩, ?_, ?_⟩, rfl⟩
  · exact List.get?_eq_get hlt
  · have hdrop : pairs.drop (t - 1) = pairs.get ⟨t - 1, hlt⟩ :: pairs.drop t := by
      have := List.drop_eq_getElem_cons hlt
      simpa [List.get_eq_getElem, show t - 1 + 1 = t by omega] using this
    have h1 : splitOff (t - 1) pairs = some (pairs.take (t - 1), pairs.drop (t - 1)) := by
      simp only [splitOff]
      rw [if_pos (by omega)]
    have h2 : removeAt 0 (pairs.drop (t - 1)) = some (pairs.get ⟨t - 1, hlt⟩, pairs.drop t) := by
      rw [hdrop]
      simp [removeAt]
    have h3 : splitOff t children = some (children.take t, children.drop t) := by
      simp only [splitOff]
      rw [if_pos (by omega)]
    simp [Node.split, h1, h2, h3]
  · exact List.get?_eq_get hlt
  · have hlen : t - 1 < (pairs.take t).length := by
      simp [hp]
      omega
    have hget : (pairs.take t).get ⟨t - 1, hlen⟩ = pairs.get ⟨t - 1, hlt⟩ := by
      simp [List.get_eq_getElem, List.getElem_take]
    have herase : (pairs.take t).eraseIdx (t - 1) = pairs.take (t - 1) := by
      have := eraseIdx_take_succ pairs (t - 1)
      simpa [show t - 1 + 1 = t by omega] using this
    have h1 : splitOff t pairs = some (pairs.take t, pairs.drop t) := by
      simp only [splitOff]
      rw [if_pos (by omega)]
    have h2 : removeAt (t - 1) (pairs.take t)
        = some (pairs.get ⟨t - 1, hlt⟩, pairs.take (t - 1)) := by
      simp only [removeAt]
      rw [dif_pos hlen, hget, herase]
    simp [Node.split, h1, h2]

/-- C6 witness: a leaf and an internal node at `t = 1` holding one pair. -/
theorem node_split_characterisation_witness :
    Node.split (Node.Internal [KeyValue.mk 5 0] [Node.Leaf [], Node.Leaf []]) 1
      = some (Except.ok ((KeyValue.mk 5 0 : KeyValue Nat Nat),
          Node.Internal [] [Node.Leaf []], Node.Internal [] [Node.Leaf []])) := by
  have h := node_split_characterisation 1 [KeyValue.mk (5 : Nat) (0 : Nat)]
    [Node.Leaf [], Node.Leaf []] (by decide) (by decide) (by decide)
  obtain ⟨⟨median, hm, hsplit⟩, -, -⟩ := h
  have : median = KeyValue.mk 5 0 := by
    have := hm
    simp only [List.get?] at this
    exact (Option.some.inj this).symm
  rw [this] at hsplit
  simpa using hsplit

theorem insertPosFold_foldl_snd [LinearOrder K] (key : K) :
    ∀ (l : List (K × V)) (p i : Nat),
      (l.foldl (fun pi rk => (if key > rk.1 then pi.2 + 1 else pi.1, pi.2 + 1)) (p, i)).2
        = i + l.length := by
  intro l
  induction l with
  | nil => intro p i; simp
  | cons a t ih =>
    intro p i
    simp only [List.foldl_cons]
    rw [ih]
    simp
    omega

theorem insertPosFold_concat [LinearOrder K] (key : K) (res : List (K × V)) (x : K × V) :
    insertPosFold key (res ++ [x])
      = if key > x.1 then res.length + 1 else insertPosFold key res := by
  unfold insertPosFold
  rw [List.foldl_append]
  rcases hst : res.foldl
      (fun pi rk => (if key > rk.1 then pi.2 + 1 else pi.1, pi.2 + 1)) (0, 0) with ⟨p, i⟩
  rw [hst]
  have hsnd := insertPosFold_foldl_snd key res 0 0
  rw [hst] at hsnd
  have hi : i = res.length := by simpa using hsnd
  simp only [List.foldl_cons, List.foldl_nil]
  by_cases h : key > x.1
  · simp [h, hi]
  · simp [h]

theorem insertPosFold_le_length [LinearOrder K] (key : K) (res : List (K × V)) :
    insertPosFold key res ≤ res.length := by
  induction res using List.reverseRecOn with
  | nil => simp [insertPosFold]
  | append_singleton l x ih =>
    rw [insertPosFold_concat]
    by_cases h : key > x.1 <;> simp [h] <;> omega

theorem insertIdx_append_of_le (a : α) :
    ∀ (l₁ : List α) (n : Nat) (l₂ : List α), n ≤ l₁.length →
      List.insertIdx n a (l₁ ++ l₂) = List.insertIdx n a l₁ ++ l₂ := by
  intro l₁
  induction l₁ with
  | nil =>
    intro n l₂ hn
    have : n = 0 := Nat.le_zero.mp (by simpa using hn)
    subst this
    simp
  | cons b t ih =>
    intro n l₂ hn
    cases n with
    | zero => simp
    | succ m =>
      simp only [List.cons_append, List.insertIdx_succ_cons]
      rw [ih m l₂ (by simpa using hn)]

/-- Inserting `(key, v)` at the position computed by the `pos`/`idx` loop
keeps a strictly key-sorted list sorted, and the result is a permutation
of pushing the pair on the front. -/
theorem insertIdx_pos_sorted [LinearOrder K] (key : K) (v : V) :
    ∀ res : List (K × V), ((res.map Prod.fst).Pairwise (· < ·)) →
      key ∉ res.map Prod.fst →
      (((List.insertIdx (insertPosFold key res) (key, v) res).map Prod.fst).Pairwise (· < ·))
      ∧ (List.insertIdx (insertPosFold key res) (key, v) res).Perm ((key, v) :: res) := by
  intro res
  induction res using List.reverseRecOn with
  | nil =>
    intro _ _
    constructor
    · simp [insertPosFold]
    · simp [insertPosFold]
  | append_singleton l x ih =>
    intro hsorted hnotin
    have hl : (l.map Prod.fst).Pairwise (· < ·) := by
      refine List.Pairwise.sublist ?_ hsorted
      exact List.Sublist.map Prod.fst (List.sublist_append_left l [x])
    have hcross : ∀ a ∈ l.map Prod.fst, a < x.1 := by
      intro a ha
      have := (List.pairwise_append.mp (by simpa using hsorted)).2.2
      exact this a ha x.1 (by simp)
    have hkl : key ∉ l.map Prod.fst := fun h => hnotin (by simp [h])
    have hkx : key ≠ x.1 := fun h => hnotin (by simp [h])
    rw [insertPosFold_concat]
    by_cases h : key > x.1
    · rw [if_pos h]
      have hlen : l.length + 1 = (l ++ [x]).length := by simp
      rw [hlen, List.insertIdx_length_self]
      constructor
      · rw [List.map_append, List.pairwise_append]
        refine ⟨hsorted, by simp, ?_⟩
        intro a ha b hb
        simp only [List.map_cons, List.map_nil, List.mem_singleton] at hb
        subst hb
        rw [List.map_append] at ha
        rcases List.mem_append.mp ha with hal | hax
        · exact lt_trans (hcross a hal) h
        · simp only [List.map_cons, List.map_nil, List.mem_singleton] at hax
          rw [hax]
          exact h
      · exact List.perm_append_singleton (key, v) (l ++ [x])
    · rw [if_neg h]
      have hklt : key < x.1 := lt_of_le_of_ne (not_lt.mp h) hkx
      rw [insertIdx_append_of_le (key, v) l (insertPosFold key l) [x]
        (insertPosFold_le_length key l)]
      obtain ⟨ihs, ihp⟩ := ih hl hkl
      constructor
      · rw [List.map_append, List.pairwise_append]
        refine ⟨ihs, by simp, ?_⟩
        intro a ha b hb
        simp at hb
        subst hb
        have hmem : a ∈ (((key, v) :: l).map Prod.fst) :=
          (ihp.map Prod.fst).mem_iff.mp ha
        rw [List.map_cons] at hmem
        rcases List.mem_cons.mp hmem with hak | hal
        · rw [hak]; exact hklt
        · exact hcross a hal
      · have hp1 : (List.insertIdx (insertPosFold key l) (key, v) l ++ [x]).Perm
            (((key, v) :: l) ++ [x]) := ihp.append_right [x]
        simpa using hp1

/-- The insertion loop of `Node::into_vec`: folding the pairs to be
inserted into a strictly key-sorted accumulator whose keys are disjoint
from theirs keeps it sorted and appends them up to permutation. -/
theorem insert_fold_sorted [LinearOrder K] :
    ∀ (toIns : List (K × V)) (res : List (K × V)),
      (res.map Prod.fst ++ toIns.map Prod.fst).Nodup →
      ((res.map Prod.fst).Pairwise (· < ·)) →
      (((toIns.foldl (fun r kv => List.insertIdx (insertPosFold kv.1 r) kv r) res).map
          Prod.fst).Pairwise (· < ·))
      ∧ (toIns.foldl (fun r kv => List.insertIdx (insertPosFold kv.1 r) kv r) res).Perm
          (res ++ toIns) := by
  intro toIns
  induction toIns with
  | nil =>
    intro res hN hs
    exact ⟨hs, by simp⟩
  | cons kv rest ih =>
    intro res hN hs
    obtain ⟨hnd1, hnd2, hdisj⟩ := List.nodup_append.mp hN
    have hk_notin : kv.1 ∉ res.map Prod.fst := by
      intro hmem
      exact hdisj hmem (by simp)
    obtain ⟨hins_s, hins_p⟩ := insertIdx_pos_sorted kv.1 kv.2 res hs hk_notin
    simp only [List.foldl_cons]
    have hkeyp : ((List.insertIdx (insertPosFold kv.1 res) (kv.1, kv.2) res).map
        Prod.fst).Perm (kv.1 :: res.map Prod.fst) := by
      simpa using hins_p.map Prod.fst
    have hN' : ((List.insertIdx (insertPosFold kv.1 res) (kv.1, kv.2) res).map Prod.fst
        ++ rest.map Prod.fst).Nodup := by
      have hperm : ((List.insertIdx (insertPosFold kv.1 res) (kv.1, kv.2) res).map Prod.fst
          ++ rest.map Prod.fst).Perm
            (res.map Prod.fst ++ ((kv.1, kv.2) :: rest).map Prod.fst) := by
        refine (hkeyp.append_right (rest.map Prod.fst)).trans ?_
        simp only [List.map_cons]
        exact List.perm_middle.symm
      exact hperm.symm.nodup (by simpa using hN)
    have hres := ih (List.insertIdx (insertPosFold kv.1 res) (kv.1, kv.2) res) hN' hins_s
    refine ⟨hres.1, hres.2.trans ?_⟩
    refine (hins_p.append_right rest).trans ?_
    simpa using List.perm_middle.symm

/-- The in-order pairs of a forest interleaved with separator pairs is a
permutation of the separators followed by the forest's pairs. -/
theorem interleave_perm (children : List (Node K V)) :
    ∀ kvs, (interleavePairs kvs children).Perm
      (kvs ++ (children.map Node.inOrderPairs).flatten) := by
  induction children with
  | nil =>
    intro kvs
    simp [interleavePairs]
  | cons c cs ih =>
    intro kvs
    cases kvs with
    | nil =>
      simp only [interleavePairs, List.map_cons, List.flatten_cons, List.nil_append]
      have h1 : (interleavePairs [] cs).Perm ((cs.map Node.inOrderPairs).flatten) := by
        simpa using ih []
      exact h1.append_left c.inOrderPairs
    | cons kv kvt =>
      simp only [interleavePairs, List.map_cons, List.flatten_cons, List.cons_append]
      have h1 : (interleavePairs kvt cs).Perm (kvt ++ (cs.map Node.inOrderPairs).flatten) :=
        ih kvt
      have h2 : (c.inOrderPairs ++ kv :: interleavePairs kvt cs).Perm
          (c.inOrderPairs ++ kv :: (kvt ++ (cs.map Node.inOrderPairs).flatten)) :=
        (h1.cons kv).append_left c.inOrderPairs
      refine h2.trans ?_
      refine List.perm_middle.trans ?_
      refine List.Perm.cons kv ?_
      have h3 : (c.inOrderPairs ++ (kvt ++ (cs.map Node.inOrderPairs).flatten)).Perm
          ((c.inOrderPairs ++ kvt) ++ (cs.map Node.inOrderPairs).flatten) := by
        rw [List.append_assoc]
      refine h3.trans ?_
      refine ((List.perm_append_comm.append_right _).trans ?_)
      rw [List.append_assoc]

/-- The forest's in-order pairs form a sublist of the interleaving. -/
theorem flatten_sublist_interleave (children : List (Node K V)) :
    ∀ kvs, ((children.map Node.inOrderPairs).flatten).Sublist (interleavePairs kvs children) := by
  induction children with
  | nil =>
    intro kvs
    simp [interleavePairs]
  | cons c cs ih =>
    intro kvs
    cases kvs with
    | nil =>
      simp only [interleavePairs, List.map_cons, List.flatten_cons]
      exact List.Sublist.append_left (ih []) c.inOrderPairs
    | cons kv kvt =>
      simp only [interleavePairs, List.map_cons, List.flatten_cons]
      exact List.Sublist.append_left ((ih kvt).cons kv) c.inOrderPairs

theorem foldl_append_eq_flatten (ls : List (List α)) :
    ∀ acc, ls.foldl (fun r child => r ++ child) acc = acc ++ ls.flatten := by
  induction ls with
  | nil =>
    intro acc
    simp
  | cons c cs ih =>
    intro acc
    simp only [List.foldl_cons, List.flatten_cons, ih]
    rw [List.append_assoc]

/-- Structural induction over the nested `Node` inductive. -/
theorem Node.strongInd {motive : Node K V → Prop}
    (hI : ∀ kvs children, (∀ c ∈ children, motive c) → motive (Node.Internal kvs children))
    (hL : ∀ kvs, motive (Node.Leaf kvs))
    (hU : motive Node.Undefined) : ∀ n, motive n
  | Node.Internal kvs children =>
    hI kvs children (fun c hc => Node.strongInd hI hL hU c)
  | Node.Leaf kvs => hL kvs
  | Node.Undefined => hU
termination_by n => sizeOf n
decreasing_by
  simp_wf
  have := List.sizeOf_lt_of_mem hc
  omega

theorem map_fst_pairize (pr : List (KeyValue K V)) :
    ((pr.map fun kv => (kv.key, kv.value)).map Prod.fst) = pr.map KeyValue.key := by
  simp [List.map_map, Function.comp]

/-- Exporting each child of a forest succeeds (when the forest is defined
and each child's export behaves) and the exports relate pointwise to the
children's in-order pairs. -/
theorem intoVecChildren_spec [LinearOrder K] :
    ∀ children : List (Node K V),
      (∀ c ∈ children, c.definedTree = true →
        ((c.inOrderPairs.map KeyValue.key).Pairwise (· < ·)) →
        ∃ l, c.into_vec = some l
          ∧ ((l.map Prod.fst).Pairwise (· < ·))
          ∧ l.Perm (c.inOrderPairs.map fun kv => (kv.key, kv.value))) →
      definedForest children = true →
      ((((children.map Node.inOrderPairs).flatten).map KeyValue.key).Pairwise (· < ·)) →
      ∃ exports, intoVecChildren children = some exports
        ∧ List.Forall₂ (fun ex pr =>
            ((ex.map Prod.fst).Pairwise (· < ·))
            ∧ ex.Perm (pr.map fun kv => (kv.key, kv.value)))
            exports (children.map Node.inOrderPairs) := by
  intro children
  induction children with
  | nil =>
    intro _ _ _
    exact ⟨[], rfl, List.Forall₂.nil⟩
  | cons c cs ih =>
    intro hIH hdef hord
    have hdefc : c.definedTree = true := by
      have := hdef
      simp only [definedForest, Bool.and_eq_true] at this
      exact this.1
    have hdefcs : definedForest cs = true := by
      have := hdef
      simp only [definedForest, Bool.and_eq_true] at this
      exact this.2
    have hordc : (c.inOrderPairs.map KeyValue.key).Pairwise (· < ·) := by
      refine List.Pairwise.sublist ?_ hord
      refine List.Sublist.map _ ?_
      simp only [List.map_cons, List.flatten_cons]
      exact List.sublist_append_left _ _
    have hordcs : (((cs.map Node.inOrderPairs).flatten).map KeyValue.key).Pairwise (· < ·) := by
      refine List.Pairwise.sublist ?_ hord
      refine List.Sublist.map _ ?_
      simp only [List.map_cons, List.flatten_cons]
      exact List.sublist_append_right _ _
    obtain ⟨l, hl, hls, hlp⟩ := hIH c (List.mem_cons_self c cs) hdefc hordc
    obtain ⟨exports, hexp, hfa⟩ :=
      ih (fun x hx => hIH x (List.mem_cons_of_mem _ hx)) hdefcs hordcs
    refine ⟨l :: exports, ?_, ?_⟩
    · simp [intoVecChildren, hl, hexp]
    · exact List.Forall₂.cons ⟨hls, hlp⟩ hfa

/-- Concatenating per-child exports that are sorted permutations of
in-order pair lists whose concatenation is globally key-sorted yields a
sorted permutation of the concatenated pairs. -/
theorem flatten_exports_sorted [LinearOrder K]
    (exports : List (List (K × V))) (pairsList : List (List (KeyValue K V)))
    (hfa : List.Forall₂ (fun ex pr =>
        ((ex.map Prod.fst).Pairwise (· < ·))
        ∧ ex.Perm (pr.map fun kv => (kv.key, kv.value))) exports pairsList) :
    ((pairsList.flatten.map KeyValue.key).Pairwise (· < ·)) →
    ((exports.flatten.map Prod.fst).Pairwise (· < ·))
    ∧ exports.flatten.Perm (pairsList.flatten.map fun kv => (kv.key, kv.value)) := by
  induction hfa with
  | nil =>
    intro _
    exact ⟨by simp, by simp⟩
  | @cons ex pr exs prs hR hfa2 ih =>
    intro hord
    simp only [List.flatten_cons, List.map_append] at hord ⊢
    obtain ⟨hpr, hprs, hcross⟩ := List.pairwise_append.mp hord
    obtain ⟨ihs, ihp⟩ := ih hprs
    constructor
    · rw [List.pairwise_append]
      refine ⟨hR.1, ihs, ?_⟩
      intro a ha b hb
      have ha' : a ∈ pr.map KeyValue.key := by
        have := (hR.2.map Prod.fst).mem_iff.mp ha
        rwa [map_fst_pairize] at this
      have hb' : b ∈ (prs.map (fun pr2 => pr2)).flatten.map KeyValue.key := by
        have := (ihp.map Prod.fst).mem_iff.mp hb
        rw [map_fst_pairize] at this
        simpa using this
      refine hcross a ha' b ?_
      simpa using hb'
    · exact hR.2.append ihp

/-- C7: for every tree with no `Undefined` node whose in-order pair
sequence is strictly increasing in keys (the B-tree key-ordering
invariant), `Node::into_vec` succeeds and yields a list of pairs that is
strictly sorted by key and a permutation of all pairs stored in the
tree. -/
theorem into_vec_sorted_of_ordered [LinearOrder K] (n : Node K V) :
    n.definedTree = true →
    ((n.inOrderPairs.map KeyValue.key).Pairwise (· < ·)) →
    ∃ l, n.into_vec = some l
      ∧ ((l.map Prod.fst).Pairwise (· < ·))
      ∧ l.Perm (n.inOrderPairs.map fun kv => (kv.key, kv.value)) := by
  induction n using Node.strongInd with
  | hI kvs children ihc =>
    intro hdef hord
    have hdefF : definedForest children = true := by
      simpa [Node.definedTree] using hdef
    have hordI : ((interleavePairs kvs children).map KeyValue.key).Pairwise (· < ·) := by
      simpa [Node.inOrderPairs] using hord
    have hordFlat :
        (((children.map Node.inOrderPairs).flatten).map KeyValue.key).Pairwise (· < ·) :=
      List.Pairwise.sublist
        (List.Sublist.map _ (flatten_sublist_interleave children kvs)) hordI
    obtain ⟨exports, hexp, hfa⟩ := intoVecChildren_spec children ihc hdefF hordFlat
    obtain ⟨hflat_s, hflat_p⟩ :=
      flatten_exports_sorted exports (children.map Node.inOrderPairs) hfa hordFlat
    have hres0 : exports.foldl (fun r child => r ++ child) [] = exports.flatten := by
      simpa using foldl_append_eq_flatten exports []
    have hip := interleave_perm children kvs
    have hN : (exports.flatten.map Prod.fst
        ++ (kvs.map fun kv => (kv.key, kv.value)).map Prod.fst).Nodup := by
      have hkeys1 : (exports.flatten.map Prod.fst).Perm
          (((children.map Node.inOrderPairs).flatten).map KeyValue.key) := by
        have := hflat_p.map Prod.fst
        rwa [map_fst_pairize] at this
      have hperm : (exports.flatten.map Prod.fst
          ++ (kvs.map fun kv => (kv.key, kv.value)).map Prod.fst).Perm
            ((interleavePairs kvs children).map KeyValue.key) := by
        rw [map_fst_pairize]
        refine (hkeys1.append_right (kvs.map KeyValue.key)).trans ?_
        refine List.perm_append_comm.trans ?_
        have := (hip.map KeyValue.key).symm
        simpa using this
      refine hperm.symm.nodup ?_
      exact List.Pairwise.imp (fun h => ne_of_lt h) hordI
    have hfold := insert_fold_sorted (kvs.map fun kv => (kv.key, kv.value))
      exports.flatten hN hflat_s
    refine ⟨(kvs.map fun kv => (kv.key, kv.value)).foldl
        (fun r kv => List.insertIdx (insertPosFold kv.1 r) kv r) exports.flatten,
      ?_, hfold.1, ?_⟩
    · simp only [Node.into_vec, hexp, hres0]
    · refine hfold.2.trans ?_
      have : (exports.flatten ++ kvs.map fun kv => (kv.key, kv.value)).Perm
          ((kvs.map fun kv => (kv.key, kv.value))
            ++ ((children.map Node.inOrderPairs).flatten.map fun kv => (kv.key, kv.value))) :=
        (hflat_p.append_right _).trans List.perm_append_comm
      refine this.trans ?_
      have h2 := (hip.map fun kv => (kv.key, kv.value)).symm
      simp only [Node.inOrderPairs]
      simpa using h2
  | hL kvs =>
    intro _ hord
    refine ⟨kvs.map fun kv => (kv.key, kv.value), ?_, ?_, ?_⟩
    · rfl
    · rw [map_fst_pairize]
      simpa [Node.inOrderPairs] using hord
    · simp [Node.inOrderPairs]
  | hU =>
    intro hdef _
    exact absurd hdef (by simp [Node.definedTree])

/-- C7 witness: the ordered two-level tree with keys `1, 2, 3`. -/
theorem into_vec_sorted_of_ordered_witness :
    ∃ l, (Node.Internal [KeyValue.mk 2 20]
        [Node.Leaf [KeyValue.mk 1 10], Node.Leaf [KeyValue.mk 3 30]] : Node Nat Nat).into_vec
          = some l
      ∧ ((l.map Prod.fst).Pairwise (· < ·))
      ∧ l.Perm ((Node.Internal [KeyValue.mk 2 20]
          [Node.Leaf [KeyValue.mk 1 10], Node.Leaf [KeyValue.mk 3 30]]
            : Node Nat Nat).inOrderPairs.map fun kv => (kv.key, kv.value)) :=
  into_vec_sorted_of_ordered _ (by rfl) (by decide)

theorem search_ok_of_containsKey [DecidableEq Id] (idx : Index Id α) (id : Id)
    (h : idx.containsKey id = true) : ∃ a, idx.search id = Except.ok a := by
  unfold Index.containsKey at h
  unfold Index.search
  rcases hf : idx.entries.find? (fun e => decide (e.1 = id)) with _ | e
  · rw [List.find?_eq_none] at hf
    rw [List.any_eq_true] at h
    obtain ⟨x, hx, hpx⟩ := h
    exact absurd hpx (by simpa using hf x hx)
  · exact ⟨e.2, by rw [hf]⟩

theorem find?_append_of_none (p : α → Bool) :
    ∀ l₁ l₂ : List α, l₁.find? p = none → (l₁ ++ l₂).find? p = l₂.find? p := by
  intro l₁
  induction l₁ with
  | nil =>
    intro l₂ _
    simp
  | cons a t ih =>
    intro l₂ h
    rcases hp : p a with _ | _
    · rw [List.cons_append, List.find?_cons_of_neg _ (by simp [hp])]
      refine ih l₂ ?_
      rwa [List.find?_cons_of_neg _ (by simp [hp])] at h
    · rw [List.find?_cons_of_pos _ hp] at h
      exact absurd h (by simp)

/-- C9: a self-loop on a present id does not return at all: `add_edge`
holds `borrow_mut` of both endpoint cells simultaneously, and for
`start = end` these are the same shared cell, so the second `borrow_mut`
panics. -/
theorem add_edge_self_loop_panics [DecidableEq Id] (g : Graph V E Id) (info : E) (id : Id)
    (h : g.vertices.containsKey id = true) :
    g.add_edge info id id = none := by
  obtain ⟨v, hv⟩ := search_ok_of_containsKey g.vertices id h
  unfold Graph.add_edge
  rw [if_neg (by simp [h])]
  rw [hv]
  simp [borrowMut]

/-- C9 witness: the one-vertex graph with a self-loop attempt on id `0`. -/
theorem add_edge_self_loop_panics_witness :
    (Graph.mk (Index.mk [(0, Vertex.mk 0 () (Vicinity.Outgoing none))])
        : Graph Unit Unit Nat).add_edge () 0 0 = none :=
  add_edge_self_loop_panics
    (Graph.mk (Index.mk [(0, Vertex.mk 0 () (Vicinity.Outgoing none))])) () 0 (by rfl)

/-- C8: `add_edge` with an absent endpoint fails with `KeyWasNotFound`;
`add_vertex` on the outgoing-capability graph rejects `Ingoing` and
`Both` vicinities with `MismatchedVicinity` unconditionally (so before
the duplicate check), rejects a present id with `VertexAlreadyExists`,
and otherwise inserts the vertex so that it can be searched. -/
theorem add_vertex_add_edge_error_contract (V E Id : Type) [DecidableEq Id] :
    (∀ (g : Graph V E Id) (info : E) (start end_ : Id),
      g.vertices.containsKey start = false ∨ g.vertices.containsKey end_ = false →
      g.add_edge info start end_ = some (Except.error Error.KeyWasNotFound))
    ∧ (∀ (g : Graph V E Id) (id : Id) (info : V) (edges : Option (List (Edge E Id))),
      g.add_vertex id info (Vicinity.Ingoing edges) = Except.error Error.MismatchedVicinity)
    ∧ (∀ (g : Graph V E Id) (id : Id) (info : V)
        (ingoing outgoing : Option (List (Edge E Id))),
      g.add_vertex id info (Vicinity.Both ingoing outgoing)
        = Except.error Error.MismatchedVicinity)
    ∧ (∀ (g : Graph V E Id) (id : Id) (info : V) (edges : Option (List (Edge E Id))),
      g.vertices.containsKey id = true →
      g.add_vertex id info (Vicinity.Outgoing edges) = Except.error Error.VertexAlreadyExists)
    ∧ (∀ (g : Graph V E Id) (id : Id) (info : V) (edges : Option (List (Edge E Id))),
      g.vertices.containsKey id = false →
      ∃ g', g.add_vertex id info (Vicinity.Outgoing edges) = Except.ok g'
        ∧ g'.vertices.search id = Except.ok (Vertex.mk id info (Vicinity.Outgoing edges))) := by
  refine ⟨?_, ?_, ?_, ?_, ?_⟩
  · intro g info start end_ h
    unfold Graph.add_edge
    rcases h with h | h <;> rw [if_pos (by simp [h])]
  · intro g id info edges
    rfl
  · intro g id info ingoing outgoing
    rfl
  · intro g id info edges h
    unfold Graph.add_vertex
    rw [if_pos h]
  · intro g id info edges h
    unfold Graph.add_vertex
    rw [if_neg (by simp [h])]
    unfold Index.insertKey
    rw [if_neg (by simp [h])]
    refine ⟨_, rfl, ?_⟩
    unfold Index.search
    have hnone : g.vertices.entries.find? (fun e => decide (e.1 = id)) = none := by
      rw [List.find?_eq_none]
      intro x hx
      unfold Index.containsKey at h
      rw [List.any_eq_false] at h
      simpa using h x hx
    rw [find?_append_of_none _ _ _ hnone]
    simp

/-- C8 witness: inserting vertex `0` into the empty graph and then looking
it up. -/
theorem add_vertex_add_edge_error_contract_witness :
    ∃ g', (Graph.mk (Index.mk []) : Graph Unit Unit Nat).add_vertex 0 ()
        (Vicinity.Outgoing none) = Except.ok g'
      ∧ g'.vertices.search 0 = Except.ok (Vertex.mk 0 () (Vicinity.Outgoing none)) :=
  (add_vertex_add_edge_error_contract Unit Unit Nat).2.2.2.2
    (Graph.mk (Index.mk [])) 0 () none (by rfl)

theorem search_ok_mem_idList [DecidableEq Id] (g : Graph V E Id) (id : Id)
    (v : Vertex V E Id) (h : g.vertices.search id = Except.ok v) : id ∈ g.idList := by
  unfold Index.search at h
  rcases hf : g.vertices.entries.find? (fun e => decide (e.1 = id)) with _ | e
  · rw [hf] at h
    exact absurd h (by simp)
  · have hmem := List.mem_of_find?_eq_some hf
    have hpred := List.find?_some hf
    have : e.1 = id := by simpa using hpred
    subst this
    exact List.mem_map_of_mem Prod.fst hmem

theorem filter_not_mem_lt (d : List α) (x : α) [DecidableEq α] :
    ∀ l : List α, x ∈ l → x ∉ d →
      (l.filter fun i => decide (¬ i ∈ d ++ [x])).length
        < (l.filter fun i => decide (¬ i ∈ d)).length := by
  have hmono : ∀ l : List α, (l.filter fun i => decide (¬ i ∈ d ++ [x])).length
      ≤ (l.filter fun i => decide (¬ i ∈ d)).length := by
    intro l
    induction l with
    | nil => simp
    | cons a t ih =>
      simp only [List.filter_cons]
      rcases hpa : (decide (¬ a ∈ d ++ [x])) with _ | _
        <;> rcases hpd : (decide (¬ a ∈ d)) with _ | _
      · simpa using ih
      · simp only [Bool.false_eq_true, if_false, if_true, List.length_cons]
        exact Nat.le_succ_of_le ih
      · have h1 := of_decide_eq_true hpa
        have h2 := of_decide_eq_false hpd
        exact absurd (List.mem_append.mpr (Or.inl (not_not.mp h2))) h1
      · simpa using ih
  intro l
  induction l with
  | nil =>
    intro h
    exact absurd h (by simp)
  | cons a t ih =>
    intro hmem hxd
    simp only [List.filter_cons]
    by_cases hax : a = x
    · subst hax
      have hpa : (decide (¬ a ∈ d ++ [a])) = false := by simp
      have hpd : (decide (¬ a ∈ d)) = true := by simpa using hxd
      rw [hpa, hpd]
      simp only [Bool.false_eq_true, if_false, if_true, List.length_cons]
      exact Nat.lt_succ_of_le (hmono t)
    · have hxt : x ∈ t := by
        rcases List.mem_cons.mp hmem with h | h
        · exact absurd h.symm hax
        · exact h
      rcases hpd : (decide (¬ a ∈ d)) with _ | _
      · have hpa : (decide (¬ a ∈ d ++ [x])) = false := by
          have h2 := not_not.mp (of_decide_eq_false hpd)
          simp [h2]
        rw [hpa]
        simpa using ih hxt hxd
      · have hpa : (decide (¬ a ∈ d ++ [x])) = true := by
          have h2 := of_decide_eq_true hpd
          simp only [decide_eq_true_eq, List.mem_append, List.mem_singleton]
          rintro (h | h)
          · exact h2 h
          · exact hax h
        rw [hpa]
        simp only [if_true, List.length_cons]
        exact Nat.succ_lt_succ (ih hxt hxd)

section TraversalLemmas

variable {V E Id : Type} {R : Type} [DecidableEq Id] [Add R]

theorem bfsAux_nil (g : Graph V E Id) (map : Vertex V E Id → R) (acc : R) (d : List Id) :
    Graph.bfsAux g map acc d [] = Except.ok (acc, d) := by
  rw [Graph.bfsAux]

theorem bfsAux_skip (g : Graph V E Id) (map : Vertex V E Id → R) (acc : R) (d : List Id)
    (id : Id) (rest : List Id) (h : id ∈ d) :
    Graph.bfsAux g map acc d (id :: rest) = Graph.bfsAux g map acc d rest := by
  rw [Graph.bfsAux]
  simp [h]

theorem bfsAux_error (g : Graph V E Id) (map : Vertex V E Id → R) (acc : R) (d : List Id)
    (id : Id) (rest : List Id) (h : id ∉ d) (e : Error)
    (hs : g.vertices.search id = Except.error e) :
    Graph.bfsAux g map acc d (id :: rest) = Except.error e := by
  rw [Graph.bfsAux]
  simp only [h, if_false]
  split
  · next e2 he => rw [hs] at he; cases he; rfl
  · next v2 hv2 => rw [hs] at hv2; exact absurd hv2 (by simp)

theorem bfsAux_visit (g : Graph V E Id) (map : Vertex V E Id → R) (acc : R) (d : List Id)
    (id : Id) (rest : List Id) (h : id ∉ d) (v : Vertex V E Id)
    (hs : g.vertices.search id = Except.ok v) :
    Graph.bfsAux g map acc d (id :: rest)
      = Graph.bfsAux g map (acc + map v) (d ++ [id]) (rest ++ v.outgoingIds) := by
  rw [Graph.bfsAux]
  simp only [h, if_false]
  split
  · next e he => rw [hs] at he; exact absurd he (by simp)
  · next v2 hv2 => rw [hs] at hv2; cases hv2; rfl

theorem dfsAux_nil (g : Graph V E Id) (map : Vertex V E Id → R) (acc : R)
    (d stack : List Id) (hq : stack.getLast? = none) :
    Graph.dfsAux g map acc d stack = Except.ok (acc, d) := by
  rw [Graph.dfsAux]
  split
  · rfl
  · next id hid => rw [hq] at hid; exact absurd hid (by simp)

theorem dfsAux_skip (g : Graph V E Id) (map : Vertex V E Id → R) (acc : R) (d : List Id)
    (id : Id) (stack : List Id) (hq : stack.getLast? = some id) (h : id ∈ d) :
    Graph.dfsAux g map acc d stack = Graph.dfsAux g map acc d stack.dropLast := by
  rw [Graph.dfsAux]
  split
  · next hn => rw [hq] at hn; exact absurd hn (by simp)
  · next id2 hid2 =>
    rw [hq] at hid2
    cases hid2
    simp [h]

theorem dfsAux_error (g : Graph V E Id) (map : Vertex V E Id → R) (acc : R) (d : List Id)
    (id : Id) (stack : List Id) (hq : stack.getLast? = some id) (h : id ∉ d) (e : Error)
    (hs : g.vertices.search id = Except.error e) :
    Graph.dfsAux g map acc d stack = Except.error e := by
  rw [Graph.dfsAux]
  split
  · next hn => rw [hq] at hn; exact absurd hn (by simp)
  · next id2 hid2 =>
    rw [hq] at hid2
    cases hid2
    simp only [h, if_false]
    split
    · next e2 he => rw [hs] at he; cases he; rfl
    · next v2 hv2 => rw [hs] at hv2; exact absurd hv2 (by simp)

theorem dfsAux_visit (g : Graph V E Id) (map : Vertex V E Id → R) (acc : R) (d : List Id)
    (id : Id) (stack : List Id) (hq : stack.getLast? = some id) (h : id ∉ d)
    (v : Vertex V E Id) (hs : g.vertices.search id = Except.ok v) :
    Graph.dfsAux g map acc d stack
      = Graph.dfsAux g map (acc + map v) (d ++ [id]) (stack.dropLast ++ v.outgoingIds) := by
  rw [Graph.dfsAux]
  split
  · next hn => rw [hq] at hn; exact absurd hn (by simp)
  · next id2 hid2 =>
    rw [hq] at hid2
    cases hid2
    simp only [h, if_false]
    split
    · next e he => rw [hs] at he; exact absurd he (by simp)
    · next v2 hv2 => rw [hs] at hv2; cases hv2; rfl

/-- A set of ids containing `s` and closed under outgoing neighbors
contains everything reachable from `s`. -/
theorem reachable_mem_closed_set (g : Graph V E Id) (S : List Id) (s : Id)
    (hs : s ∈ S) (hcl : ∀ a ∈ S, ∀ b ∈ g.neighborsOf a, b ∈ S) :
    ∀ t, g.ReachableFrom s t → t ∈ S := by
  intro t ht
  induction ht with
  | refl => exact hs
  | tail _ hstep ih => exact hcl _ ih _ hstep

/-- Loop invariant of the breadth-first traversal: under the reachability
hypotheses the loop succeeds, extends `discovered` in order, visits
without duplicates only reachable ids, consumes the whole frontier, and
ends closed under outgoing neighbors; the accumulator is the fold of the
mapped vertices over the newly visited ids. -/
theorem bfsAux_invariant (g : Graph V E Id) (map : Vertex V E Id → R) (s : Id)
    (hwf : ∀ t, g.ReachableFrom s t → ∃ v, g.vertices.search t = Except.ok v) :
    ∀ (acc : R) (discovered queue : List Id),
      (∀ x ∈ discovered, g.ReachableFrom s x) →
      (∀ x ∈ queue, g.ReachableFrom s x) →
      (∀ x ∈ discovered, ∀ y ∈ g.neighborsOf x, y ∈ discovered ∨ y ∈ queue) →
      discovered.Nodup →
      ∃ extra visited,
        Graph.bfsAux g map acc discovered queue
          = Except.ok (Graph.foldVisit g map acc extra, visited)
        ∧ visited = discovered ++ extra
        ∧ visited.Nodup
        ∧ (∀ x ∈ visited, g.ReachableFrom s x)
        ∧ (∀ x ∈ queue, x ∈ visited)
        ∧ (∀ x ∈ visited, ∀ y ∈ g.neighborsOf x, y ∈ visited) := by
  intro acc discovered queue
  induction acc, discovered, queue using Graph.bfsAux.induct g map with
  | case1 acc d =>
    intro hd _ hclosed hnodup
    refine ⟨[], d, ?_, by simp, hnodup, hd, by simp, ?_⟩
    · rw [bfsAux_nil]
      rfl
    · intro x hx y hy
      rcases hclosed x hx y hy with h | h
      · exact h
      · exact absurd h (by simp)
  | case2 acc d id rest hmem ih =>
    intro hd hq hclosed hnodup
    obtain ⟨extra, visited, hrun, hvd, hnd, hreach, hqmem, hcl⟩ :=
      ih hd (fun x hx => hq x (List.mem_cons_of_mem _ hx))
        (fun x hx y hy => by
          rcases hclosed x hx y hy with h | h
          · exact Or.inl h
          · rcases List.mem_cons.mp h with h2 | h2
            · exact Or.inl (h2 ▸ hmem)
            · exact Or.inr h2)
        hnodup
    refine ⟨extra, visited, ?_, hvd, hnd, hreach, ?_, hcl⟩
    · rw [bfsAux_skip g map acc d id rest hmem]
      exact hrun
    · intro x hx
      rcases List.mem_cons.mp hx with h2 | h2
      · subst h2
        rw [hvd]
        exact List.mem_append.mpr (Or.inl hmem)
      · exact hqmem x h2
  | case3 acc d id rest hnmem e hs =>
    intro _ hq _ _
    obtain ⟨v, hv⟩ := hwf id (hq id (List.mem_cons_self id rest))
    rw [hv] at hs
    exact absurd hs (by simp)
  | case4 acc d id rest hnmem vertex hs ih =>
    intro hd hq hclosed hnodup
    have hreach_id : g.ReachableFrom s id := hq id (List.mem_cons_self id rest)
    have hnbrs : g.neighborsOf id = vertex.outgoingIds := by
      unfold Graph.neighborsOf
      rw [hs]
    obtain ⟨extra, visited, hrun, hvd, hnd, hreach, hqmem, hcl⟩ :=
      ih (by
          intro x hx
          rcases List.mem_append.mp hx with h | h
          · exact hd x h
          · have : x = id := by simpa using h
            exact this ▸ hreach_id)
        (by
          intro x hx
          rcases List.mem_append.mp hx with h | h
          · exact hq x (List.mem_cons_of_mem _ h)
          · refine Relation.ReflTransGen.tail hreach_id ?_
            show x ∈ g.neighborsOf id
            rw [hnbrs]
            exact h)
        (by
          intro x hx y hy
          rcases List.mem_append.mp hx with hxd | hxid
          · rcases hclosed x hxd y hy with h | h
            · exact Or.inl (List.mem_append.mpr (Or.inl h))
            · rcases List.mem_cons.mp h with h2 | h2
              · exact Or.inl (by simp [h2])
              · exact Or.inr (List.mem_append.mpr (Or.inl h2))
          · have : x = id := by simpa using hxid
            subst this
            rw [hnbrs] at hy
            exact Or.inr (List.mem_append.mpr (Or.inr hy)))
        (by simp [List.nodup_append, hnodup, hnmem])
    refine ⟨id :: extra, visited, ?_, ?_, hnd, hreach, ?_, hcl⟩
    · rw [bfsAux_visit g map acc d id rest hnmem vertex hs, hrun]
      simp only [Graph.foldVisit, List.foldl_cons, hs]
    · rw [hvd, List.append_assoc]
      rfl
    · intro x hx
      rcases List.mem_cons.mp hx with h2 | h2
      · subst h2
        rw [hvd]
        exact List.mem_append.mpr (Or.inl (by simp))
      · exact hqmem x (List.mem_append.mpr (Or.inl h2))

/-- Loop invariant of the depth-first traversal: identical to the
breadth-first one, with the frontier consumed from the back. -/
theorem dfsAux_invariant (g : Graph V E Id) (map : Vertex V E Id → R) (s : Id)
    (hwf : ∀ t, g.ReachableFrom s t → ∃ v, g.vertices.search t = Except.ok v) :
    ∀ (acc : R) (discovered stack : List Id),
      (∀ x ∈ discovered, g.ReachableFrom s x) →
      (∀ x ∈ stack, g.ReachableFrom s x) →
      (∀ x ∈ discovered, ∀ y ∈ g.neighborsOf x, y ∈ discovered ∨ y ∈ stack) →
      discovered.Nodup →
      ∃ extra visited,
        Graph.dfsAux g map acc discovered stack
          = Except.ok (Graph.foldVisit g map acc extra, visited)
        ∧ visited = discovered ++ extra
        ∧ visited.Nodup
        ∧ (∀ x ∈ visited, g.ReachableFrom s x)
        ∧ (∀ x ∈ stack, x ∈ visited)
        ∧ (∀ x ∈ visited, ∀ y ∈ g.neighborsOf x, y ∈ visited) := by
  intro acc discovered stack
  induction acc, discovered, stack using Graph.dfsAux.induct g map with
  | case1 acc d stack hq =>
    intro hd _ hclosed hnodup
    have hstack : stack = [] := by
      cases stack with
      | nil => rfl
      | cons a t => exact absurd hq (by simp)
    subst hstack
    refine ⟨[], d, ?_, by simp, hnodup, hd, by simp, ?_⟩
    · rw [dfsAux_nil g map acc d [] (by simp)]
      rfl
    · intro x hx y hy
      rcases hclosed x hx y hy with h | h
      · exact h
      · exact absurd h (by simp)
  | case2 acc d stack id hq hmem ih =>
    intro hd hq2 hclosed hnodup
    have hstack : stack = stack.dropLast ++ [id] :=
      Eq.symm (List.dropLast_append_getLast? id hq)
    obtain ⟨extra, visited, hrun, hvd, hnd, hreach, hqmem, hcl⟩ :=
      ih hd (fun x hx => hq2 x (by rw [hstack]; exact List.mem_append.mpr (Or.inl hx)))
        (fun x hx y hy => by
          rcases hclosed x hx y hy with h | h
          · exact Or.inl h
          · rw [hstack] at h
            rcases List.mem_append.mp h with h2 | h2
            · exact Or.inr h2
            · have : y = id := by simpa using h2
              exact Or.inl (this ▸ hmem))
        hnodup
    refine ⟨extra, visited, ?_, hvd, hnd, hreach, ?_, hcl⟩
    · rw [dfsAux_skip g map acc d id stack hq hmem]
      exact hrun
    · intro x hx
      rw [hstack] at hx
      rcases List.mem_append.mp hx with h2 | h2
      · exact hqmem x h2
      · have : x = id := by simpa using h2
        subst this
        rw [hvd]
        exact List.mem_append.mpr (Or.inl hmem)
  | case3 acc d stack id hq hnmem e hs =>
    intro _ hq2 _ _
    have hstack : stack = stack.dropLast ++ [id] :=
      Eq.symm (List.dropLast_append_getLast? id hq)
    obtain ⟨v, hv⟩ := hwf id (hq2 id (by rw [hstack]; simp))
    rw [hv] at hs
    exact absurd hs (by simp)
  | case4 acc d stack id hq hnmem vertex hs ih =>
    intro hd hq2 hclosed hnodup
    have hstack : stack = stack.dropLast ++ [id] :=
      Eq.symm (List.dropLast_append_getLast? id hq)
    have hreach_id : g.ReachableFrom s id := hq2 id (by rw [hstack]; simp)
    have hnbrs : g.neighborsOf id = vertex.outgoingIds := by
      unfold Graph.neighborsOf
      rw [hs]
    obtain ⟨extra, visited, hrun, hvd, hnd, hreach, hqmem, hcl⟩ :=
      ih (by
          intro x hx
          rcases List.mem_append.mp hx with h | h
          · exact hd x h
          · have : x = id := by simpa using h
            exact this ▸ hreach_id)
        (by
          intro x hx
          rcases List.mem_append.mp hx with h | h
          · exact hq2 x (by rw [hstack]; exact List.mem_append.mpr (Or.inl h))
          · refine Relation.ReflTransGen.tail hreach_id ?_
            show x ∈ g.neighborsOf id
            rw [hnbrs]
            exact h)
        (by
          intro x hx y hy
          rcases List.mem_append.mp hx with hxd | hxid
          · rcases hclosed x hxd y hy with h | h
            · exact Or.inl (List.mem_append.mpr (Or.inl h))
            · rw [hstack] at h
              rcases List.mem_append.mp h with h2 | h2
              · exact Or.inr (List.mem_append.mpr (Or.inl h2))
              · have : y = id := by simpa using h2
                exact Or.inl (by simp [this])
          · have : x = id := by simpa using hxid
            subst this
            rw [hnbrs] at hy
            exact Or.inr (List.mem_append.mpr (Or.inr hy)))
        (by simp [List.nodup_append, hnodup, hnmem])
    refine ⟨id :: extra, visited, ?_, ?_, hnd, hreach, ?_, hcl⟩
    · rw [dfsAux_visit g map acc d id stack hq hnmem vertex hs, hrun]
      simp only [Graph.foldVisit, List.foldl_cons, hs]
    · rw [hvd, List.append_assoc]
      rfl
    · intro x hx
      rw [hstack] at hx
      rcases List.mem_append.mp hx with h2 | h2
      · exact hqmem x (List.mem_append.mpr (Or.inl h2))
      · have : x = id := by simpa using h2
        subst this
        rw [hvd]
        exact List.mem_append.mpr (Or.inl (by simp))

theorem bfsAux_visited_extends (g : Graph V E Id) (map : Vertex V E Id → R) :
    ∀ (acc : R) (d q : List Id) (accF : R) (visited : List Id),
      Graph.bfsAux g map acc d q = Except.ok (accF, visited) →
      ∃ suffix, visited = d ++ suffix := by
  intro acc d q
  induction acc, d, q using Graph.bfsAux.induct g map with
  | case1 acc d =>
    intro accF visited h
    rw [bfsAux_nil] at h
    cases h
    exact ⟨[], by simp⟩
  | case2 acc d id rest hmem ih =>
    intro accF visited h
    rw [bfsAux_skip _ _ _ _ _ _ hmem] at h
    exact ih accF visited h
  | case3 acc d id rest hnmem e hs =>
    intro accF visited h
    rw [bfsAux_error _ _ _ _ _ _ hnmem e hs] at h
    exact absurd h (by simp)
  | case4 acc d id rest hnmem vertex hs ih =>
    intro accF visited h
    rw [bfsAux_visit _ _ _ _ _ _ hnmem vertex hs] at h
    obtain ⟨suffix, hsuf⟩ := ih _ _ h
    refine ⟨id :: suffix, ?_⟩
    rw [hsuf, List.append_assoc]
    rfl

/-- A FIFO frontier visits the fresh ids of its current prefix in list
order before anything else: the visited list continues with
`newOnes ns discovered`. -/
theorem bfsAux_visited_newOnes (g : Graph V E Id) (map : Vertex V E Id → R) :
    ∀ (ns d tail : List Id) (acc accF : R) (visited : List Id),
      Graph.bfsAux g map acc d (ns ++ tail) = Except.ok (accF, visited) →
      ∃ suffix, visited = (d ++ newOnes ns d) ++ suffix := by
  intro ns
  induction ns with
  | nil =>
    intro d tail acc accF visited h
    obtain ⟨suffix, hsuf⟩ := bfsAux_visited_extends g map acc d ([] ++ tail) accF visited h
    refine ⟨suffix, ?_⟩
    rw [hsuf]
    simp [newOnes]
  | cons n ns' ih =>
    intro d tail acc accF visited h
    rw [List.cons_append] at h
    by_cases hmem : n ∈ d
    · rw [bfsAux_skip _ _ _ _ _ _ hmem] at h
      obtain ⟨suffix, hsuf⟩ := ih d tail acc accF visited h
      refine ⟨suffix, ?_⟩
      rw [hsuf]
      simp [newOnes, hmem]
    · cases hsearch : g.vertices.search n with
      | error e =>
        rw [bfsAux_error _ _ _ _ _ _ hmem e hsearch] at h
        exact absurd h (by simp)
      | ok v =>
        rw [bfsAux_visit _ _ _ _ _ _ hmem v hsearch] at h
        rw [List.append_assoc] at h
        obtain ⟨suffix, hsuf⟩ := ih (d ++ [n]) (tail ++ v.outgoingIds) (acc + map v)
          accF visited h
        refine ⟨suffix, ?_⟩
        rw [hsuf]
        simp [newOnes, hmem, List.append_assoc]

/-- C2: for every graph and start id such that every id reachable from the
start (along the outgoing adjacency lists, the only lists a
`WithOutgoing` traversal follows) resolves to a vertex,
`depth_first_traversal` and `breadth_first_traversal` succeed, apply the
per-vertex function exactly once to every reachable vertex and to no
other (the returned accumulator is the fold of the mapped values over
the duplicate-free visit list, which contains exactly the reachable
ids); the breadth-first order starts with the start id followed by its
fresh outgoing neighbor ids in outgoing-edge list order. -/
theorem traversals_visit_reachable_exactly_once (V E Id R : Type) [DecidableEq Id] [Add R]
    (g : Graph V E Id) (s : Id) (acc : R) (map : Vertex V E Id → R)
    (hwf : ∀ t, g.ReachableFrom s t → ∃ v, g.vertices.search t = Except.ok v) :
    ∃ visitedB visitedD : List Id,
      Graph.bfsAux g map acc [] [s] = Except.ok (Graph.foldVisit g map acc visitedB, visitedB)
      ∧ g.breadth_first_traversal s acc map = Except.ok (Graph.foldVisit g map acc visitedB)
      ∧ visitedB.Nodup
      ∧ (∀ x, x ∈ visitedB ↔ g.ReachableFrom s x)
      ∧ Graph.dfsAux g map acc [] [s] = Except.ok (Graph.foldVisit g map acc visitedD, visitedD)
      ∧ g.depth_first_traversal s acc map = Except.ok (Graph.foldVisit g map acc visitedD)
      ∧ visitedD.Nodup
      ∧ (∀ x, x ∈ visitedD ↔ g.ReachableFrom s x)
      ∧ ∃ suffix, visitedB = s :: (newOnes (g.neighborsOf s) [s] ++ suffix) := by
  have hreach_s : g.ReachableFrom s s := Relation.ReflTransGen.refl
  have hq0 : ∀ x ∈ [s], g.ReachableFrom s x := by
    intro x hx
    have : x = s := by simpa using hx
    exact this ▸ hreach_s
  obtain ⟨extraB, visitedB, hrunB, hvdB, hndB, hreachB, hqmemB, hclB⟩ :=
    bfsAux_invariant g map s hwf acc [] [s] (by simp) hq0 (by simp) (by simp)
  obtain ⟨extraD, visitedD, hrunD, hvdD, hndD, hreachD, hqmemD, hclD⟩ :=
    dfsAux_invariant g map s hwf acc [] [s] (by simp) hq0 (by simp) (by simp)
  have hextraB : extraB = visitedB := by
    rw [hvdB]
    rfl
  have hextraD : extraD = visitedD := by
    rw [hvdD]
    rfl
  rw [hextraB] at hrunB
  rw [hextraD] at hrunD
  have hsB : s ∈ visitedB := hqmemB s (by simp)
  have hsD : s ∈ visitedD := hqmemD s (by simp)
  have hcovB : ∀ x, g.ReachableFrom s x → x ∈ visitedB :=
    reachable_mem_closed_set g visitedB s hsB hclB
  have hcovD : ∀ x, g.ReachableFrom s x → x ∈ visitedD :=
    reachable_mem_closed_set g visitedD s hsD hclD
  obtain ⟨v₀, hv₀⟩ := hwf s hreach_s
  have hnbrs0 : g.neighborsOf s = v₀.outgoingIds := by
    unfold Graph.neighborsOf
    rw [hv₀]
  have horder : ∃ suffix, visitedB = s :: (newOnes (g.neighborsOf s) [s] ++ suffix) := by
    have hstep := bfsAux_visit g map acc [] s [] (by simp) v₀ hv₀
    rw [hstep] at hrunB
    have hfr : ([] : List Id) ++ v₀.outgoingIds = v₀.outgoingIds ++ [] := by simp
    rw [hfr] at hrunB
    obtain ⟨suffix, hsuf⟩ := bfsAux_visited_newOnes g map v₀.outgoingIds ([] ++ [s]) []
      (acc + map v₀) (Graph.foldVisit g map acc visitedB) visitedB hrunB
    refine ⟨suffix, ?_⟩
    rw [hsuf, hnbrs0]
    simp
  refine ⟨visitedB, visitedD, hrunB, ?_, hndB, ?_, hrunD, ?_, hndD, ?_, horder⟩
  · unfold Graph.breadth_first_traversal
    rw [hrunB]
    rfl
  · intro x
    exact ⟨hreachB x, hcovB x⟩
  · unfold Graph.depth_first_traversal
    rw [hrunD]
    rfl
  · intro x
    exact ⟨hreachD x, hcovD x⟩

end TraversalLemmas

theorem exampleGraph_search_ok :
    ∀ t, exampleGraph.ReachableFrom 0 t →
      ∃ v, exampleGraph.vertices.search t = Except.ok v := by
  intro t ht
  have hmem := reachable_mem_closed_set exampleGraph [0, 1, 2] 0 (by decide)
    (by decide) t ht
  have : t = 0 ∨ t = 1 ∨ t = 2 := by simpa using hmem
  rcases this with h | h | h <;> subst h
  · exact ⟨_, rfl⟩
  · exact ⟨_, rfl⟩
  · exact ⟨_, rfl⟩

/-- C2 witness: both traversals on the example graph `A→B, A→C, B→C`
starting at `A`. -/
theorem traversals_visit_reachable_exactly_once_witness :
    ∃ visitedB visitedD : List Nat,
      Graph.bfsAux exampleGraph (fun v => v.id) 0 [] [0]
        = Except.ok (Graph.foldVisit exampleGraph (fun v => v.id) 0 visitedB, visitedB)
      ∧ exampleGraph.breadth_first_traversal 0 0 (fun v => v.id)
          = Except.ok (Graph.foldVisit exampleGraph (fun v => v.id) 0 visitedB)
      ∧ visitedB.Nodup
      ∧ (∀ x, x ∈ visitedB ↔ exampleGraph.ReachableFrom 0 x)
      ∧ Graph.dfsAux exampleGraph (fun v => v.id) 0 [] [0]
          = Except.ok (Graph.foldVisit exampleGraph (fun v => v.id) 0 visitedD, visitedD)
      ∧ exampleGraph.depth_first_traversal 0 0 (fun v => v.id)
          = Except.ok (Graph.foldVisit exampleGraph (fun v => v.id) 0 visitedD)
      ∧ visitedD.Nodup
      ∧ (∀ x, x ∈ visitedD ↔ exampleGraph.ReachableFrom 0 x)
      ∧ ∃ suffix, visitedB = 0 :: (newOnes (exampleGraph.neighborsOf 0) [0] ++ suffix) :=
  traversals_visit_reachable_exactly_once Unit Unit Nat Nat exampleGraph 0 0
    (fun v => v.id) exampleGraph_search_ok

section PosLemmas

variable {α : Type}

theorem lastIdxWhere_concat (p : α → Bool) (l : List α) (x : α) :
    lastIdxWhere p (l ++ [x]) = if p x then some l.length else lastIdxWhere p l := by
  unfold lastIdxWhere
  rw [List.enum_append]
  simp only [List.enumFrom_singleton, List.filter_append]
  by_cases hx : p x
  · simp [hx, List.getLast?_concat]
  · simp [hx]

theorem lastIdxWhere_eq_none_iff (p : α → Bool) (l : List α) :
    lastIdxWhere p l = none ↔ ∀ a ∈ l, ¬ p a := by
  induction l using List.reverseRecOn with
  | nil => simp [lastIdxWhere]
  | append_singleton t x ih =>
    rw [lastIdxWhere_concat]
    by_cases hx : p x
    · simp only [hx, if_true]
      constructor
      · intro h
        exact absurd h (by simp)
      · intro h
        exact absurd (h x (by simp)) (by simpa using hx)
    · simp only [hx, if_false, Bool.false_eq_true, ih]
      constructor
      · intro hall a ha
        rcases List.mem_append.mp ha with h2 | h2
        · exact hall a h2
        · have : a = x := by simpa using h2
          subst this
          simpa using hx
      · intro hall a ha
        exact hall a (List.mem_append.mpr (Or.inl ha))

theorem lastIdxWhere_spec (p : α → Bool) :
    ∀ (l : List α) (i : Nat), lastIdxWhere p l = some i →
      i < l.length ∧ ∃ x, l.get? i = some x ∧ p x := by
  intro l
  induction l using List.reverseRecOn with
  | nil => intro i h; exact absurd h (by simp [lastIdxWhere])
  | append_singleton t x ih =>
    intro i h
    rw [lastIdxWhere_concat] at h
    by_cases hx : p x
    · rw [if_pos hx] at h
      cases h
      refine ⟨by simp, x, ?_, hx⟩
      exact List.get?_concat_length t x
    · rw [if_neg hx] at h
      obtain ⟨hlt, y, hy, hpy⟩ := ih i h
      refine ⟨by simp; omega, y, ?_, hpy⟩
      rw [List.get?_append hlt]
      exact hy

theorem posFold_snd (f : α → Bool) :
    ∀ (l : List α) (p0 i0 : Nat),
      (l.foldl (fun pi a => (if f a then pi.2 else pi.1, pi.2 + 1)) (p0, i0)).2
        = i0 + l.length := by
  intro l
  induction l with
  | nil => intro p0 i0; simp
  | cons a t ih =>
    intro p0 i0
    simp only [List.foldl_cons]
    rw [ih]
    simp
    omega

theorem posFold_fst (f : α → Bool) :
    ∀ (l : List α) (p0 : Nat),
      (l.foldl (fun pi a => (if f a then pi.2 else pi.1, pi.2 + 1)) (p0, 0)).1
        = (lastIdxWhere f l).getD p0 := by
  intro l
  induction l using List.reverseRecOn with
  | nil =>
    intro p0
    simp [lastIdxWhere]
  | append_singleton t x ih =>
    intro p0
    rw [List.foldl_append, lastIdxWhere_concat]
    rcases hst : t.foldl (fun pi a => (if f a then pi.2 else pi.1, pi.2 + 1)) (p0, 0)
      with ⟨p, i⟩
    have hsnd := posFold_snd f t p0 0
    rw [hst] at hsnd
    have hi : i = t.length := by simpa using hsnd
    have hfst := ih p0
    rw [hst] at hfst
    simp only [List.foldl_cons, List.foldl_nil]
    by_cases hx : f x
    · simp [hx, hi]
    · simp only [hx, if_false, Bool.false_eq_true]
      simpa using hfst

theorem length_filter_mono_of_imp (p q : α → Bool) (h : ∀ a, p a = true → q a = true) :
    ∀ l : List α, (l.filter p).length ≤ (l.filter q).length := by
  intro l
  induction l with
  | nil => simp
  | cons a t ih =>
    simp only [List.filter_cons]
    rcases hpa : p a with _ | _
    · rcases hqa : q a with _ | _
      · simpa using ih
      · simp only [Bool.false_eq_true, if_false, if_true, List.length_cons]
        exact Nat.le_succ_of_le ih
    · rw [h a hpa]
      simpa using ih

theorem length_filter_lt_of_flip (p q : α → Bool) (h : ∀ a, p a = true → q a = true)
    (x : α) (hq : q x = true) (hp : p x = false) :
    ∀ l : List α, x ∈ l → (l.filter p).length < (l.filter q).length := by
  intro l
  induction l with
  | nil => intro hx; exact absurd hx (by simp)
  | cons a t ih =>
    intro hx
    simp only [List.filter_cons]
    by_cases hax : a = x
    · subst hax
      rw [hp, hq]
      simp only [Bool.false_eq_true, if_false, if_true, List.length_cons]
      exact Nat.lt_succ_of_le (length_filter_mono_of_imp p q h t)
    · have hxt : x ∈ t := by
        rcases List.mem_cons.mp hx with h2 | h2
        · exact absurd h2.symm hax
        · exact h2
      rcases hpa : p a with _ | _
      · rcases hqa : q a with _ | _
        · simpa using ih hxt
        · simp only [Bool.false_eq_true, if_false, if_true, List.length_cons]
          exact Nat.lt_succ_of_lt (ih hxt)
      · rw [h a hpa]
        simp only [if_true, List.length_cons]
        exact Nat.succ_lt_succ (ih hxt)

theorem get?_eq_some_set_eq_self : ∀ (l : List α) (i : Nat) (a : α),
    l.get? i = some a → l.set i a = l := by
  intro l
  induction l with
  | nil => intro i a h; exact absurd h (by simp)
  | cons b t ih =>
    intro i a h
    cases i with
    | zero =>
      have : b = a := by simpa using h
      subst this
      rfl
    | succ j =>
      have := ih j a (by simpa using h)
      simp [List.set_cons_succ, this]

theorem mem_set_of_ne_get (l : List α) (pos : Nat) (m' mk mk₀ : α) (h : mk ∈ l)
    (hget : l.get? pos = some mk₀) (hne : mk ≠ mk₀) : mk ∈ l.set pos m' := by
  obtain ⟨j, hj⟩ := List.get?_of_mem h
  have hjpos : j ≠ pos := by
    intro he
    subst he
    rw [hj] at hget
    exact hne (by simpa using hget)
  have : (l.set pos m').get? j = l.get? j := List.get?_set_ne m' l hjpos.symm
  rw [hj] at this
  exact List.get?_mem this

end PosLemmas

theorem markPos_eq [DecidableEq Id] (marks : List (Mark Id)) (v_id : Id) :
    markPos marks v_id
      = (lastIdxWhere (fun m => decide (m.markedId = v_id)) marks).getD marks.length := by
  unfold markPos
  have hfun : (fun (pi : Nat × Nat) (mark : Mark Id) =>
      ((if mark.markedId = v_id then pi.2 else pi.1), pi.2 + 1))
      = fun (pi : Nat × Nat) (mark : Mark Id) =>
        ((if (fun m : Mark Id => decide (m.markedId = v_id)) mark then pi.2 else pi.1),
          pi.2 + 1) := by
    funext pi mark
    by_cases h : mark.markedId = v_id <;> simp [h]
  rw [hfun]
  exact posFold_fst _ marks marks.length

theorem markPos_eq_length_of_not_mem [DecidableEq Id] (marks : List (Mark Id)) (v_id : Id)
    (h : v_id ∉ marksIds marks) : markPos marks v_id = marks.length := by
  rw [markPos_eq]
  have : lastIdxWhere (fun m => decide (m.markedId = v_id)) marks = none := by
    rw [lastIdxWhere_eq_none_iff]
    intro a ha hpa
    exact h (by
      unfold marksIds
      exact List.mem_map.mpr ⟨a, ha, by simpa using hpa⟩)
  rw [this]
  rfl

theorem markPos_get_of_mem [DecidableEq Id] (marks : List (Mark Id)) (v_id : Id)
    (h : v_id ∈ marksIds marks) :
    markPos marks v_id < marks.length
    ∧ ∃ mk, marks.get? (markPos marks v_id) = some mk ∧ mk.markedId = v_id := by
  rw [markPos_eq]
  rcases hl : lastIdxWhere (fun m => decide (m.markedId = v_id)) marks with _ | i
  · rw [lastIdxWhere_eq_none_iff] at hl
    obtain ⟨mk, hmk, hid⟩ := List.mem_map.mp h
    exact absurd (by simpa using hid : decide (mk.markedId = v_id) = true) (by simpa using hl mk hmk)
  · rw [hl]
    obtain ⟨hlt, mk, hget, hp⟩ := lastIdxWhere_spec _ marks i hl
    exact ⟨hlt, mk, hget, by simpa using hp⟩

theorem visitConcl_refl [DecidableEq Id] (g : Graph V E Id) (marks : List (Mark Id))
    (deps : List Id) (h1 : MarksInv g marks) (h2 : GOOD g marks deps) :
    VisitConcl g marks deps marks deps :=
  ⟨h1, h2, fun _ h => h, fun _ => Iff.rfl, fun mk h => Or.inl h, ⟨[], by simp⟩,
    ⟨[], by simp⟩, Nat.le_refl _⟩

theorem visitConcl_trans [DecidableEq Id] (g : Graph V E Id)
    {m₁ m₂ m₃ : List (Mark Id)} {d₁ d₂ d₃ : List Id}
    (h₁ : VisitConcl g m₁ d₁ m₂ d₂) (h₂ : VisitConcl g m₂ d₂ m₃ d₃) :
    VisitConcl g m₁ d₁ m₃ d₃ := by
  obtain ⟨hI₁, hG₁, hP₁, hT₁, hO₁, ⟨n₁, hn₁⟩, ⟨p₁, hp₁⟩, hU₁⟩ := h₁
  obtain ⟨hI₂, hG₂, hP₂, hT₂, hO₂, ⟨n₂, hn₂⟩, ⟨p₂, hp₂⟩, hU₂⟩ := h₂
  refine ⟨hI₂, hG₂, fun id h => hP₂ id (hP₁ id h), fun id => (hT₂ id).trans (hT₁ id),
    ?_, ⟨n₁ ++ n₂, ?_⟩, ⟨p₂ ++ p₁, ?_⟩, Nat.le_trans hU₂ hU₁⟩
  · intro mk h
    rcases hO₂ mk h with h2 | h2
    · exact hO₁ mk h2
    · exact Or.inr h2
  · rw [hn₂, hn₁, List.append_assoc]
  · rw [hp₂, hp₁, List.append_assoc]

section MarkToolkit

variable {V E Id : Type} [DecidableEq Id]

theorem nodup_get?_inj {α : Type} (L : List α) (hN : L.Nodup) (i j : Nat) (a : α)
    (hi : L.get? i = some a) (hj : L.get? j = some a) : i = j := by
  obtain ⟨hilt, hig⟩ := List.get?_eq_some.mp hi
  obtain ⟨hjlt, hjg⟩ := List.get?_eq_some.mp hj
  have := (@List.Nodup.getElem_inj_iff α L hN i hilt j hjlt).mp
  simp only [List.get_eq_getElem] at hig hjg
  exact this (by rw [hig, hjg])

/-- In a mark list with one mark per id, the entry at the (unique) position
whose id is `mk.markedId` is `mk` itself whenever `mk` is a member. -/
theorem get_pos_of_mem_unique (l : List (Mark Id)) (hN : (marksIds l).Nodup)
    (mk : Mark Id) (hmk : mk ∈ l) (pos : Nat)
    (hpos : (marksIds l).get? pos = some mk.markedId) : l.get? pos = some mk := by
  obtain ⟨j, hj⟩ := List.get?_of_mem hmk
  have hj' : (marksIds l).get? j = some mk.markedId := by
    unfold marksIds
    rw [List.get?_map, hj]
    rfl
  have : j = pos := nodup_get?_inj _ hN j pos _ hj' hpos
  rw [← this]
  exact hj

theorem marksIds_set_same (l : List (Mark Id)) (pos : Nat) (mk₀ m' : Mark Id)
    (hget : l.get? pos = some mk₀) (hid : m'.markedId = mk₀.markedId) :
    marksIds (l.set pos m') = marksIds l := by
  unfold marksIds
  rw [List.map_set, hid]
  refine get?_eq_some_set_eq_self _ _ _ ?_
  rw [List.get?_map, hget]
  rfl

theorem mem_set_self_of_get (l : List (Mark Id)) (pos : Nat) (mk₀ m' : Mark Id)
    (hget : l.get? pos = some mk₀) : m' ∈ l.set pos m' := by
  obtain ⟨hlt, -⟩ := List.get?_eq_some.mp hget
  have h2 : (l.set pos m').get ⟨pos, by simpa using hlt⟩ = m' := List.get_set_eq _
  have h3 := List.get_mem (l.set pos m') pos (by simpa using hlt)
  rwa [h2] at h3

/-- No other member of a duplicate-free mark list shares the id of the
entry at `pos`. -/
theorem unique_id_entry (l : List (Mark Id)) (hN : (marksIds l).Nodup) (pos : Nat)
    (mk₀ mk : Mark Id) (hget : l.get? pos = some mk₀) (hmk : mk ∈ l)
    (hid : mk.markedId = mk₀.markedId) : mk = mk₀ :=
  List.inj_on_of_nodup_map hN hmk (List.get?_mem hget) hid

theorem mem_set_of_id_ne (l : List (Mark Id)) (pos : Nat) (mk₀ m' mk : Mark Id)
    (hget : l.get? pos = some mk₀) (hmk : mk ∈ l) (hid : mk.markedId ≠ mk₀.markedId) :
    mk ∈ l.set pos m' :=
  mem_set_of_ne_get l pos m' mk mk₀ hmk hget (fun he => hid (by rw [he]))

theorem GOOD_of_perm_iff (g : Graph V E Id) (marks marks' : List (Mark Id)) (deps : List Id)
    (hiff : ∀ id, Mark.Permanent id ∈ marks' ↔ Mark.Permanent id ∈ marks)
    (h : GOOD g marks deps) : GOOD g marks' deps :=
  ⟨fun id => (hiff id).trans (h.1 id), h.2.1, h.2.2⟩

/-- Effect of `marks[pos] = Temporary(id)` on an `Unmarked` entry. -/
theorem set_temp_facts (g : Graph V E Id) (marks₁ : List (Mark Id)) (deps : List Id)
    (pos : Nat) (id0 : Id)
    (hInv : MarksInv g marks₁) (hGood : GOOD g marks₁ deps)
    (hid0 : id0 ∈ g.idList)
    (hget : marks₁.get? pos = some (Mark.Unmarked id0)) :
    MarksInv g (marks₁.set pos (Mark.Temporary id0))
    ∧ GOOD g (marks₁.set pos (Mark.Temporary id0)) deps
    ∧ (∀ id, Mark.Permanent id ∈ marks₁.set pos (Mark.Temporary id0)
        ↔ Mark.Permanent id ∈ marks₁)
    ∧ (∀ id, Mark.Temporary id ∈ marks₁.set pos (Mark.Temporary id0)
        ↔ (id = id0 ∨ Mark.Temporary id ∈ marks₁))
    ∧ marksIds (marks₁.set pos (Mark.Temporary id0)) = marksIds marks₁
    ∧ UCount g (marks₁.set pos (Mark.Temporary id0)) + 1 ≤ UCount g marks₁
    ∧ Mark.Temporary id0 ∉ marks₁ ∧ Mark.Permanent id0 ∉ marks₁ := by
  have hN := hInv.1
  have hids : marksIds (marks₁.set pos (Mark.Temporary id0)) = marksIds marks₁ :=
    marksIds_set_same _ _ _ _ hget rfl
  have hTnotin : Mark.Temporary id0 ∉ marks₁ := by
    intro hmem
    have := unique_id_entry marks₁ hN pos _ _ hget hmem rfl
    exact absurd this (by simp)
  have hPnotin : Mark.Permanent id0 ∉ marks₁ := by
    intro hmem
    have := unique_id_entry marks₁ hN pos _ _ hget hmem rfl
    exact absurd this (by simp)
  have hperm : ∀ id, Mark.Permanent id ∈ marks₁.set pos (Mark.Temporary id0)
      ↔ Mark.Permanent id ∈ marks₁ := by
    intro id
    constructor
    · intro h
      rcases List.mem_or_eq_of_mem_set h with h2 | h2
      · exact h2
      · exact absurd h2 (by simp)
    · intro h
      refine mem_set_of_id_ne _ _ _ _ _ hget h ?_
      intro hidEq
      have : id = id0 := by simpa [Mark.markedId] using hidEq
      exact hPnotin (this ▸ h)
  have htemp : ∀ id, Mark.Temporary id ∈ marks₁.set pos (Mark.Temporary id0)
      ↔ (id = id0 ∨ Mark.Temporary id ∈ marks₁) := by
    intro id
    constructor
    · intro h
      rcases List.mem_or_eq_of_mem_set h with h2 | h2
      · exact Or.inr h2
      · have : id = id0 := by simpa using h2
        exact Or.inl this
    · rintro (h | h)
      · subst h
        exact mem_set_self_of_get _ _ _ _ hget
      · refine mem_set_of_id_ne _ _ _ _ _ hget h ?_
        intro hidEq
        have : id = id0 := by simpa [Mark.markedId] using hidEq
        exact hTnotin (this ▸ h)
  refine ⟨⟨hids ▸ hN, hids ▸ hInv.2⟩, GOOD_of_perm_iff g _ _ _ hperm hGood, hperm, htemp,
    hids, ?_, hTnotin, hPnotin⟩
  refine Nat.succ_le_of_lt ?_
  unfold UCount
  refine length_filter_lt_of_flip _ _ ?_ id0 ?_ ?_ g.idList hid0
  · intro a ha
    have ha2 := of_decide_eq_true ha
    refine decide_eq_true ?_
    intro hTP
    refine ha2 ?_
    rcases hTP with h | h
    · exact Or.inl ((htemp a).mpr (Or.inr h))
    · exact Or.inr ((hperm a).mpr h)
  · refine decide_eq_true ?_
    rintro (h | h)
    · exact hTnotin h
    · exact hPnotin h
  · refine decide_eq_false ?_
    intro hne
    exact hne (Or.inl ((htemp id0).mpr (Or.inl rfl)))

/-- The overwritten entry's id occurs nowhere else: a mark sharing the id
of the entry at `pos` and different from the new value is gone after the
write. -/
theorem not_mem_set_of_unique_id (l : List (Mark Id)) (hN : (marksIds l).Nodup)
    (pos : Nat) (mk₀ m' mk : Mark Id) (hget : l.get? pos = some mk₀)
    (hid : mk.markedId = mk₀.markedId) (hne : mk ≠ m') : mk ∉ l.set pos m' := by
  intro h
  obtain ⟨j, hj⟩ := List.get?_of_mem h
  obtain ⟨hposlt, -⟩ := List.get?_eq_some.mp hget
  by_cases hjp : j = pos
  · subst hjp
    rw [List.get?_set_eq_of_lt m' hposlt] at hj
    exact hne (by simpa using hj.symm)
  · have hlj : l.get? j = some mk := by
      rw [← List.get?_set_ne m' l (fun he => hjp he.symm)]
      exact hj
    have h1 : (marksIds l).get? j = some mk₀.markedId := by
      unfold marksIds
      rw [List.get?_map, hlj]
      simp [hid]
    have h2 : (marksIds l).get? pos = some mk₀.markedId := by
      unfold marksIds
      rw [List.get?_map, hget]
      rfl
    exact hjp (nodup_get?_inj _ hN j pos _ h1 h2)

/-- Effect of `marks[pos] = Permanent(id)` plus `deps.push_front(id)` on a
`Temporary` entry whose outgoing neighbors are all in `deps`. -/
theorem set_perm_push (g : Graph V E Id) (marks₃ : List (Mark Id)) (deps₃ : List Id)
    (pos : Nat) (id0 : Id) (mk₀ : Mark Id)
    (hInv : MarksInv g marks₃) (hGood : GOOD g marks₃ deps₃)
    (hget : marks₃.get? pos = some mk₀)
    (hmk₀ : mk₀ = Mark.Temporary id0 ∨ mk₀ = Mark.Unmarked id0)
    (hnb : ∀ y ∈ g.neighborsOf id0, y ∈ deps₃) :
    MarksInv g (marks₃.set pos (Mark.Permanent id0))
    ∧ GOOD g (marks₃.set pos (Mark.Permanent id0)) (id0 :: deps₃)
    ∧ (∀ id, Mark.Permanent id ∈ marks₃.set pos (Mark.Permanent id0)
        ↔ (id = id0 ∨ Mark.Permanent id ∈ marks₃))
    ∧ (∀ id, Mark.Temporary id ∈ marks₃.set pos (Mark.Permanent id0)
        ↔ (Mark.Temporary id ∈ marks₃ ∧ id ≠ id0))
    ∧ marksIds (marks₃.set pos (Mark.Permanent id0)) = marksIds marks₃
    ∧ UCount g (marks₃.set pos (Mark.Permanent id0)) ≤ UCount g marks₃
    ∧ (∀ mk ∈ marks₃.set pos (Mark.Permanent id0),
        mk ∈ marks₃ ∨ ∃ id2, mk = Mark.Permanent id2)
    ∧ id0 ∉ deps₃ := by
  have hN := hInv.1
  have hid₀ : mk₀.markedId = id0 := by
    rcases hmk₀ with h | h <;> simp [h, Mark.markedId]
  have hids : marksIds (marks₃.set pos (Mark.Permanent id0)) = marksIds marks₃ :=
    marksIds_set_same _ _ _ _ hget (by rw [hid₀]; simp [Mark.markedId])
  have hPnotin : Mark.Permanent id0 ∉ marks₃ := by
    intro hmem
    have := unique_id_entry marks₃ hN pos _ _ hget hmem (by rw [hid₀]; simp [Mark.markedId])
    rcases hmk₀ with h | h <;> simp [h] at this
  have hdep0 : id0 ∉ deps₃ := fun h => hPnotin ((hGood.1 id0).mpr h)
  have hperm : ∀ id, Mark.Permanent id ∈ marks₃.set pos (Mark.Permanent id0)
      ↔ (id = id0 ∨ Mark.Permanent id ∈ marks₃) := by
    intro id
    constructor
    · intro h
      rcases List.mem_or_eq_of_mem_set h with h2 | h2
      · exact Or.inr h2
      · exact Or.inl (by simpa using h2)
    · rintro (h | h)
      · subst h
        exact mem_set_self_of_get _ _ _ _ hget
      · refine mem_set_of_id_ne _ _ _ _ _ hget h ?_
        intro hidEq
        rw [hid₀] at hidEq
        have : id = id0 := by simpa [Mark.markedId] using hidEq
        exact hPnotin (this ▸ h)
  have htemp : ∀ id, Mark.Temporary id ∈ marks₃.set pos (Mark.Permanent id0)
      ↔ (Mark.Temporary id ∈ marks₃ ∧ id ≠ id0) := by
    intro id
    constructor
    · intro h
      by_cases hii : id = id0
      · subst hii
        exact absurd h
          (not_mem_set_of_unique_id marks₃ hN pos _ _ _ hget
            (by rw [hid₀]; simp [Mark.markedId]) (by simp))
      · rcases List.mem_or_eq_of_mem_set h with h2 | h2
        · exact ⟨h2, hii⟩
        · exact absurd h2 (by simp)
    · rintro ⟨h, hii⟩
      refine mem_set_of_id_ne _ _ _ _ _ hget h ?_
      intro hidEq
      rw [hid₀] at hidEq
      exact hii (by simpa [Mark.markedId] using hidEq)
  have horigin : ∀ mk ∈ marks₃.set pos (Mark.Permanent id0),
      mk ∈ marks₃ ∨ ∃ id2, mk = Mark.Permanent id2 := by
    intro mk h
    rcases List.mem_or_eq_of_mem_set h with h2 | h2
    · exact Or.inl h2
    · exact Or.inr ⟨id0, h2⟩
  have hgood : GOOD g (marks₃.set pos (Mark.Permanent id0)) (id0 :: deps₃) := by
    refine ⟨?_, ?_, ?_⟩
    · intro id
      rw [hperm id, List.mem_cons, hGood.1 id]
    · exact List.nodup_cons.mpr ⟨hdep0, hGood.2.1⟩
    · intro u hu y hy
      rcases List.mem_cons.mp hu with h2 | h2
      · subst h2
        have hyd : y ∈ deps₃ := hnb y hy
        have hyne : y ≠ u := fun he => hdep0 (he ▸ hyd)
        refine ⟨List.mem_cons_of_mem _ hyd, ?_⟩
        rw [List.indexOf_cons_self, List.indexOf_cons_ne _ (fun he => hyne he.symm)]
        omega
      · obtain ⟨hyd, hidx⟩ := hGood.2.2 u h2 y hy
        have hune : u ≠ id0 := fun he => hdep0 (he ▸ h2)
        have hyne : y ≠ id0 := fun he => hdep0 (he ▸ hyd)
        refine ⟨List.mem_cons_of_mem _ hyd, ?_⟩
        rw [List.indexOf_cons_ne _ (fun he => hune he.symm),
          List.indexOf_cons_ne _ (fun he => hyne he.symm)]
        omega
  refine ⟨⟨hids ▸ hN, hids ▸ hInv.2⟩, hgood, hperm, htemp, hids, ?_, horigin, hdep0⟩
  unfold UCount
  refine length_filter_mono_of_imp _ _ ?_ g.idList
  intro a ha
  have ha2 := of_decide_eq_true ha
  refine decide_eq_true ?_
  intro hTP
  refine ha2 ?_
  rcases hTP with h | h
  · by_cases hii : a = id0
    · subst hii
      exact Or.inr ((hperm a).mpr (Or.inl rfl))
    · exact Or.inl ((htemp a).mpr ⟨h, hii⟩)
  · exact Or.inr ((hperm a).mpr (Or.inr h))

theorem visit_node_succ (g : Graph V E Id) (fuel : Nat) (v : Vertex V E Id)
    (marks : List (Mark Id)) (deps : List Id) :
    g.visit_node (fuel + 1) v marks deps =
      (let pos := markPos marks v.id
       let marks₁ := if pos = marks.length then marks ++ [Mark.Unmarked v.id] else marks
       match marks₁.get? pos with
       | none => none
       | some (Mark.Permanent _) => some (Except.ok (marks₁, deps))
       | some (Mark.Temporary _) =>
         some (Except.error (Error.WithMessage "Graph contains cycle"))
       | some (Mark.Unmarked id) =>
         match v.vicinity with
         | Vicinity.Outgoing (some edges) =>
           match g.visit_edges fuel edges (marks₁.set pos (Mark.Temporary id)) deps with
           | none => none
           | some (Except.error e) => some (Except.error e)
           | some (Except.ok (marks', deps')) =>
             some (Except.ok (marks'.set pos (Mark.Permanent id), id :: deps'))
         | Vicinity.Outgoing none =>
           some (Except.ok (marks₁.set pos (Mark.Permanent id), id :: deps))
         | _ => some (Except.error Error.MismatchedVicinity)) := by
  conv_lhs => rw [Graph.visit_node]

theorem visit_edges_nil (g : Graph V E Id) (fuel : Nat) (marks : List (Mark Id))
    (deps : List Id) :
    g.visit_edges fuel [] marks deps = some (Except.ok (marks, deps)) := by
  conv_lhs => rw [Graph.visit_edges]

theorem visit_edges_cons (g : Graph V E Id) (fuel : Nat) (edge : Edge E Id)
    (rest : List (Edge E Id)) (marks : List (Mark Id)) (deps : List Id) :
    g.visit_edges fuel (edge :: rest) marks deps =
      (match g.vertices.search edge.get_end_id with
       | Except.error _ => some (Except.error Error.NullPointer)
       | Except.ok w =>
         match g.visit_node fuel w marks deps with
         | none => none
         | some (Except.error e) => some (Except.error e)
         | some (Except.ok (marks', deps')) => g.visit_edges fuel rest marks' deps') := by
  conv_lhs => rw [Graph.visit_edges]
  rcases g.vertices.search edge.get_end_id with _ | w
  · rfl
  · rcases g.visit_node fuel w marks deps with _ | r
    · rfl
    · rcases r with e | ⟨marks', deps'⟩ <;> rfl

/-- The `Unmarked` branch of `visit_node`: mark `Temporary`, visit every
outgoing edge, mark `Permanent` and prepend the id — or fail only with
the cycle message. -/
theorem visit_unmarked_branch (g : Graph V E Id)
    (H3 : ∀ id v, g.vertices.search id = Except.ok v →
      ∃ es, v.vicinity = Vicinity.Outgoing es)
    (H4 : ∀ id v, g.vertices.search id = Except.ok v →
      ∀ y ∈ v.outgoingIds, y ∈ g.idList)
    (fuel : Nat)
    (hE : ∀ (edges : List (Edge E Id)) (marks : List (Mark Id)) (deps : List Id),
      (∀ e ∈ edges, e.get_end_id ∈ g.idList) →
      MarksInv g marks → GOOD g marks deps →
      UCount g marks + 1 ≤ fuel →
      ∃ r, g.visit_edges fuel edges marks deps = some r ∧
        (r = Except.error (Error.WithMessage "Graph contains cycle")
          ∨ ∃ marks' deps', r = Except.ok (marks', deps')
            ∧ VisitConcl g marks deps marks' deps'
            ∧ ∀ e ∈ edges, Mark.Permanent e.get_end_id ∈ marks'))
    (v : Vertex V E Id) (marks marks₁ : List (Mark Id)) (deps : List Id) (pos : Nat)
    (hsearch : g.vertices.search v.id = Except.ok v)
    (hget : marks₁.get? pos = some (Mark.Unmarked v.id))
    (hInv₁ : MarksInv g marks₁) (hGood₁ : GOOD g marks₁ deps)
    (hperm₀ : ∀ id, Mark.Permanent id ∈ marks₁ ↔ Mark.Permanent id ∈ marks)
    (htemp₀ : ∀ id, Mark.Temporary id ∈ marks₁ ↔ Mark.Temporary id ∈ marks)
    (horig₀ : ∀ mk ∈ marks₁, mk ∈ marks ∨ mk = Mark.Unmarked v.id)
    (hids₀ : ∃ newIds, marksIds marks₁ = marksIds marks ++ newIds)
    (hU₀ : UCount g marks₁ = UCount g marks)
    (hfuel : UCount g marks + 1 ≤ fuel + 1) :
    ∃ r, (match v.vicinity with
      | Vicinity.Outgoing (some edges) =>
        match g.visit_edges fuel edges (marks₁.set pos (Mark.Temporary v.id)) deps with
        | none => none
        | some (Except.error e) => some (Except.error e)
        | some (Except.ok (marks', deps')) =>
          some (Except.ok (marks'.set pos (Mark.Permanent v.id), v.id :: deps'))
      | Vicinity.Outgoing none =>
        some (Except.ok (marks₁.set pos (Mark.Permanent v.id), v.id :: deps))
      | _ => some (Except.error Error.MismatchedVicinity)) = some r
    ∧ (r = Except.error (Error.WithMessage "Graph contains cycle")
       ∨ ∃ marks' deps', r = Except.ok (marks', deps')
         ∧ VisitConcl g marks deps marks' deps'
         ∧ Mark.Permanent v.id ∈ marks') := by
  have hvin : v.id ∈ g.idList := search_ok_mem_idList g v.id v hsearch
  have hnbrs : g.neighborsOf v.id = v.outgoingIds := by
    unfold Graph.neighborsOf
    rw [hsearch]
  obtain ⟨es, hvic⟩ := H3 v.id v hsearch
  cases es with
  | none =>
    have hout : v.outgoingIds = [] := by
      unfold Vertex.outgoingIds
      rw [hvic]
    obtain ⟨hInvF, hGoodF, hpermF, htempF, hidsF, hUF, horigF, hdep0F⟩ :=
      set_perm_push g marks₁ deps pos v.id (Mark.Unmarked v.id) hInv₁ hGood₁ hget
        (Or.inr rfl) (by rw [hnbrs, hout]; intro y hy; exact absurd hy (by simp))
    have hTn₁ : Mark.Temporary v.id ∉ marks₁ := by
      intro hmem
      have := unique_id_entry marks₁ hInv₁.1 pos _ _ hget hmem rfl
      exact absurd this (by simp)
    refine ⟨Except.ok (marks₁.set pos (Mark.Permanent v.id), v.id :: deps), ?_, Or.inr
      ⟨marks₁.set pos (Mark.Permanent v.id), v.id :: deps, rfl, ?_,
        (hpermF v.id).mpr (Or.inl rfl)⟩⟩
    · rw [hvic]
    · refine ⟨hInvF, hGoodF, ?_, ?_, ?_, ?_, ⟨[v.id], rfl⟩, ?_⟩
      · intro id h
        exact (hpermF id).mpr (Or.inr ((hperm₀ id).mpr h))
      · intro id
        rw [htempF id]
        constructor
        · rintro ⟨h, -⟩
          exact (htemp₀ id).mp h
        · intro h
          have hmem₁ : Mark.Temporary id ∈ marks₁ := (htemp₀ id).mpr h
          refine ⟨hmem₁, ?_⟩
          intro he
          exact hTn₁ (he ▸ hmem₁)
      · intro mk hmk
        rcases horigF mk hmk with h2 | h2
        · rcases horig₀ mk h2 with h3 | h3
          · exact Or.inl h3
          · subst h3
            have hPmem : Mark.Permanent v.id ∈ marks₁.set pos (Mark.Permanent v.id) :=
              (hpermF v.id).mpr (Or.inl rfl)
            have := List.inj_on_of_nodup_map hInvF.1 hmk hPmem rfl
            exact absurd this (by simp)
        · exact Or.inr h2
      · obtain ⟨n₀, hn₀⟩ := hids₀
        exact ⟨n₀, by rw [hidsF, hn₀]⟩
      · rw [hU₀] at hUF
        exact hUF
  | some edges =>
    have hout : v.outgoingIds = edges.map Edge.get_end_id := by
      unfold Vertex.outgoingIds
      rw [hvic]
    obtain ⟨hInv₂, hGood₂, hperm₂, htemp₂, hids₂, hU₂, hTn₁, hPn₁⟩ :=
      set_temp_facts g marks₁ deps pos v.id hInv₁ hGood₁ hvin hget
    have hPE : ∀ e ∈ edges, e.get_end_id ∈ g.idList := by
      intro e he
      refine H4 v.id v hsearch e.get_end_id ?_
      rw [hout]
      exact List.mem_map_of_mem _ he
    obtain ⟨r, hrun, hclass⟩ := hE edges (marks₁.set pos (Mark.Temporary v.id)) deps hPE
      hInv₂ hGood₂ (by omega)
    rcases hclass with hcyc | ⟨marks₃, deps₃, hok, VC, hPends⟩
    · subst hcyc
      refine ⟨Except.error (Error.WithMessage "Graph contains cycle"), ?_, Or.inl rfl⟩
      rw [hvic]
      simp only [hrun]
    · subst hok
      obtain ⟨hInv₃, hGood₃, hPmono₃, hTiff₃, horig₃, ⟨n₂, hn₂⟩, ⟨pre₃, hpre₃⟩, hU₃⟩ := VC
      have hposlt : pos < marks₁.length := (List.get?_eq_some.mp hget).1
      have hTmem₃ : Mark.Temporary v.id ∈ marks₃ :=
        (hTiff₃ v.id).mpr (mem_set_self_of_get _ _ _ _ hget)
      have hidsget : (marksIds marks₃).get? pos = some v.id := by
        rw [hn₂, hids₂]
        rw [List.get?_append (by
          unfold marksIds
          rw [List.length_map]
          exact hposlt)]
        unfold marksIds
        rw [List.get?_map, hget]
        rfl
      have hget₃ : marks₃.get? pos = some (Mark.Temporary v.id) :=
        get_pos_of_mem_unique marks₃ hInv₃.1 (Mark.Temporary v.id) hTmem₃ pos hidsget
      have hnb₃ : ∀ y ∈ g.neighborsOf v.id, y ∈ deps₃ := by
        intro y hy
        rw [hnbrs, hout] at hy
        obtain ⟨e, he, hey⟩ := List.mem_map.mp hy
        have := hPends e he
        rw [hey] at this
        exact (hGood₃.1 y).mp this
      obtain ⟨hInvF, hGoodF, hpermF, htempF, hidsF, hUF, horigF, hdep0F⟩ :=
        set_perm_push g marks₃ deps₃ pos v.id (Mark.Temporary v.id) hInv₃ hGood₃ hget₃
          (Or.inl rfl) hnb₃
      refine ⟨Except.ok (marks₃.set pos (Mark.Permanent v.id), v.id :: deps₃), ?_, Or.inr
        ⟨marks₃.set pos (Mark.Permanent v.id), v.id :: deps₃, rfl, ?_,
          (hpermF v.id).mpr (Or.inl rfl)⟩⟩
      · rw [hvic]
        simp only [hrun]
      · refine ⟨hInvF, hGoodF, ?_, ?_, ?_, ?_, ⟨v.id :: pre₃, by rw [hpre₃]; rfl⟩, ?_⟩
        · intro id h
          exact (hpermF id).mpr (Or.inr (hPmono₃ id ((hperm₂ id).mpr ((hperm₀ id).mpr h))))
        · intro id
          rw [htempF id, hTiff₃ id, htemp₂ id]
          have hTnot : Mark.Temporary v.id ∉ marks := fun h => hTn₁ ((htemp₀ v.id).mpr h)
          by_cases hii : id = v.id
          · subst hii
            constructor
            · rintro ⟨-, h⟩
              exact absurd rfl h
            · intro h
              exact absurd h hTnot
          · constructor
            · rintro ⟨h2 | h2, -⟩
              · exact absurd h2 hii
              · exact (htemp₀ id).mp h2
            · intro h
              exact ⟨Or.inr ((htemp₀ id).mpr h), hii⟩
        · intro mk hmk
          rcases horigF mk hmk with h2 | h2
          · rcases horig₃ mk h2 with h3 | h3
            · rcases List.mem_or_eq_of_mem_set h3 with h4 | h4
              · rcases horig₀ mk h4 with h5 | h5
                · exact Or.inl h5
                · subst h5
                  have hPmem : Mark.Permanent v.id ∈ marks₃.set pos (Mark.Permanent v.id) :=
                    (hpermF v.id).mpr (Or.inl rfl)
                  have := List.inj_on_of_nodup_map hInvF.1 hmk hPmem rfl
                  exact absurd this (by simp)
              · subst h4
                have := (htempF v.id).mp hmk
                exact absurd rfl this.2
            · exact Or.inr h3
          · exact Or.inr h2
        · obtain ⟨n₀, hn₀⟩ := hids₀
          exact ⟨n₀ ++ n₂, by rw [hidsF, hn₂, hids₂, hn₀, List.append_assoc]⟩
        · rw [hU₀] at hU₂
          omega

/-- Main induction on the recursion depth: on a well-formed outgoing
graph, `visit_node` and `visit_edges` never panic or run out of the
supplied depth bound, and either fail with exactly the cycle message or
succeed maintaining the mark/dependency invariants. -/
theorem visit_spec (g : Graph V E Id)
    (H1 : ∀ id ∈ g.idList, ∃ v, g.vertices.search id = Except.ok v)
    (H2 : ∀ id v, g.vertices.search id = Except.ok v → Vertex.id v = id)
    (H3 : ∀ id v, g.vertices.search id = Except.ok v →
      ∃ es, v.vicinity = Vicinity.Outgoing es)
    (H4 : ∀ id v, g.vertices.search id = Except.ok v →
      ∀ y ∈ v.outgoingIds, y ∈ g.idList) :
    ∀ fuel : Nat,
      (∀ (v : Vertex V E Id) (marks : List (Mark Id)) (deps : List Id),
        g.vertices.search v.id = Except.ok v →
        MarksInv g marks → GOOD g marks deps →
        UCount g marks + 1 ≤ fuel →
        ∃ r, g.visit_node fuel v marks deps = some r ∧
          (r = Except.error (Error.WithMessage "Graph contains cycle")
            ∨ ∃ marks' deps', r = Except.ok (marks', deps')
              ∧ VisitConcl g marks deps marks' deps'
              ∧ Mark.Permanent v.id ∈ marks'))
      ∧ (∀ (edges : List (Edge E Id)) (marks : List (Mark Id)) (deps : List Id),
        (∀ e ∈ edges, e.get_end_id ∈ g.idList) →
        MarksInv g marks → GOOD g marks deps →
        UCount g marks + 1 ≤ fuel →
        ∃ r, g.visit_edges fuel edges marks deps = some r ∧
          (r = Except.error (Error.WithMessage "Graph contains cycle")
            ∨ ∃ marks' deps', r = Except.ok (marks', deps')
              ∧ VisitConcl g marks deps marks' deps'
              ∧ ∀ e ∈ edges, Mark.Permanent e.get_end_id ∈ marks')) := by
  intro fuel
  induction fuel with
  | zero =>
    constructor
    · intro v marks deps _ _ _ hfuel
      omega
    · intro edges marks deps _ _ _ hfuel
      omega
  | succ fuel ih =>
    have hN : ∀ (v : Vertex V E Id) (marks : List (Mark Id)) (deps : List Id),
        g.vertices.search v.id = Except.ok v →
        MarksInv g marks → GOOD g marks deps →
        UCount g marks + 1 ≤ fuel + 1 →
        ∃ r, g.visit_node (fuel + 1) v marks deps = some r ∧
          (r = Except.error (Error.WithMessage "Graph contains cycle")
            ∨ ∃ marks' deps', r = Except.ok (marks', deps')
              ∧ VisitConcl g marks deps marks' deps'
              ∧ Mark.Permanent v.id ∈ marks') := by
      intro v marks deps hsearch hInv hGood hfuel
      have hvin := search_ok_mem_idList g v.id v hsearch
      rw [visit_node_succ]
      by_cases hmem : v.id ∈ marksIds marks
      · obtain ⟨hlt, mk, hget, hmkid⟩ := markPos_get_of_mem marks v.id hmem
        have hifc : ¬ (markPos marks v.id = marks.length) := by omega
        cases mk with
        | Permanent id2 =>
          have hid2 : id2 = v.id := by simpa [Mark.markedId] using hmkid
          subst hid2
          refine ⟨Except.ok (marks, deps), ?_, Or.inr ⟨marks, deps, rfl,
            visitConcl_refl g marks deps hInv hGood, List.get?_mem hget⟩⟩
          simp only [hifc, ite_false, hget]
        | Temporary id2 =>
          refine ⟨Except.error (Error.WithMessage "Graph contains cycle"), ?_, Or.inl rfl⟩
          simp only [hifc, ite_false, hget]
        | Unmarked id2 =>
          have hid2 : id2 = v.id := by simpa [Mark.markedId] using hmkid
          subst hid2
          obtain ⟨r, hr, hclass⟩ := visit_unmarked_branch g H3 H4 fuel ih.2 v marks marks
            deps (markPos marks v.id) hsearch hget hInv hGood (fun _ => Iff.rfl)
            (fun _ => Iff.rfl) (fun mk h => Or.inl h) ⟨[], by simp⟩ rfl hfuel
          refine ⟨r, ?_, hclass⟩
          simp only [hifc, ite_false, hget]
          exact hr
      · have hifc : markPos marks v.id = marks.length :=
          markPos_eq_length_of_not_mem marks v.id hmem
        have hget : (marks ++ [Mark.Unmarked v.id]).get? marks.length
            = some (Mark.Unmarked v.id) := List.get?_concat_length marks _
        have hidsapp : marksIds (marks ++ [Mark.Unmarked v.id])
            = marksIds marks ++ [v.id] := by
          unfold marksIds
          simp [Mark.markedId]
        have hInv₁ : MarksInv g (marks ++ [Mark.Unmarked v.id]) := by
          constructor
          · rw [hidsapp]
            simp only [List.nodup_append]
            exact ⟨hInv.1, by simp, by simpa using fun h => hmem h⟩
          · intro id hid
            rw [hidsapp] at hid
            rcases List.mem_append.mp hid with h | h
            · exact hInv.2 id h
            · have : id = v.id := by simpa using h
              exact this ▸ hvin
        have hperm₀ : ∀ id, Mark.Permanent id ∈ marks ++ [Mark.Unmarked v.id]
            ↔ Mark.Permanent id ∈ marks := by
          intro id
          simp [List.mem_append]
        have htemp₀ : ∀ id, Mark.Temporary id ∈ marks ++ [Mark.Unmarked v.id]
            ↔ Mark.Temporary id ∈ marks := by
          intro id
          simp [List.mem_append]
        have hU₀ : UCount g (marks ++ [Mark.Unmarked v.id]) = UCount g marks := by
          unfold UCount
          refine congrArg List.length (List.filter_congr ?_)
          intro a _
          refine decide_eq_decide.mpr ?_
          rw [hperm₀ a, htemp₀ a]
        obtain ⟨r, hr, hclass⟩ := visit_unmarked_branch g H3 H4 fuel ih.2 v marks
          (marks ++ [Mark.Unmarked v.id]) deps marks.length hsearch hget hInv₁
          (GOOD_of_perm_iff g marks _ deps hperm₀ hGood) hperm₀ htemp₀
          (fun mk h => by
            rcases List.mem_append.mp h with h2 | h2
            · exact Or.inl h2
            · exact Or.inr (by simpa using h2))
          ⟨[v.id], hidsapp⟩ hU₀ hfuel
        refine ⟨r, ?_, hclass⟩
        simp only [hifc, ite_true, hget]
        exact hr
    refine ⟨hN, ?_⟩
    intro edges
    induction edges with
    | nil =>
      intro marks deps _ hInv hGood _
      refine ⟨Except.ok (marks, deps), visit_edges_nil g (fuel + 1) marks deps, Or.inr
        ⟨marks, deps, rfl, visitConcl_refl g marks deps hInv hGood, ?_⟩⟩
      intro e he
      exact absurd he (by simp)
    | cons e rest ihe =>
      intro marks deps hPE hInv hGood hfuel
      rw [visit_edges_cons]
      obtain ⟨w, hw⟩ := H1 e.get_end_id (hPE e (List.mem_cons_self e rest))
      have hwid : w.id = e.get_end_id := H2 _ _ hw
      obtain ⟨r₁, hr₁, hclass₁⟩ := hN w marks deps (by rw [hwid]; exact hw) hInv hGood hfuel
      rcases hclass₁ with hcyc | ⟨marks', deps', hok, VC₁, hPw⟩
      · subst hcyc
        refine ⟨Except.error (Error.WithMessage "Graph contains cycle"), ?_, Or.inl rfl⟩
        simp only [hw, hr₁]
      · subst hok
        obtain ⟨hInv', hGood', hPmono', hTiff', horig', hids', hpre', hU'⟩ := VC₁
        obtain ⟨r₂, hr₂, hclass₂⟩ := ihe marks' deps'
          (fun e2 he2 => hPE e2 (List.mem_cons_of_mem _ he2)) hInv' hGood' (by omega)
        refine ⟨r₂, ?_, ?_⟩
        · simp only [hw, hr₁]
          exact hr₂
        · rcases hclass₂ with hcyc | ⟨m₃, d₃, hok₂, VC₂, hPrest⟩
          · exact Or.inl hcyc
          · refine Or.inr ⟨m₃, d₃, hok₂,
              visitConcl_trans g
                ⟨hInv', hGood', hPmono', hTiff', horig', hids', hpre', hU'⟩ VC₂, ?_⟩
            intro e2 he2
            rcases List.mem_cons.mp he2 with h2 | h2
            · subst h2
              exact VC₂.2.2.1 e2.get_end_id (hwid ▸ hPw)
            · exact hPrest e2 h2

theorem all_marks_foldl (marks : List (Mark Id)) : ∀ b : Bool,
    (marks.foldl
      (fun acc mark =>
        match mark with
        | Mark.Permanent _ => acc
        | _ => false) b) = true
      ↔ (b = true ∧ ∀ mk ∈ marks, ∃ id, mk = Mark.Permanent id) := by
  induction marks with
  | nil =>
    intro b
    simp
  | cons mk rest ih =>
    intro b
    rw [List.foldl_cons]
    cases mk with
    | Permanent id =>
      rw [ih]
      constructor
      · rintro ⟨hb, hall⟩
        refine ⟨hb, ?_⟩
        intro mk2 hmk2
        rcases List.mem_cons.mp hmk2 with h2 | h2
        · exact ⟨id, h2⟩
        · exact hall mk2 h2
      · rintro ⟨hb, hall⟩
        exact ⟨hb, fun mk2 h2 => hall mk2 (List.mem_cons_of_mem _ h2)⟩
    | Temporary id =>
      rw [ih]
      constructor
      · rintro ⟨hb, _⟩
        cases hb
      · rintro ⟨hb, hall⟩
        rcases hall (Mark.Temporary id) (List.mem_cons_self _ _) with ⟨id2, h2⟩
        cases h2
    | Unmarked id =>
      rw [ih]
      constructor
      · rintro ⟨hb, _⟩
        cases hb
      · rintro ⟨hb, hall⟩
        rcases hall (Mark.Unmarked id) (List.mem_cons_self _ _) with ⟨id2, h2⟩
        cases h2

theorem all_marks_are_permanent_iff (marks : List (Mark Id)) :
    all_marks_are_permanent marks = true
      ↔ ∀ mk ∈ marks, ∃ id, mk = Mark.Permanent id :=
  (all_marks_foldl marks true).trans (by simp)

theorem topoLoop_done (g : Graph V E Id) (fuel : Nat) (marks : List (Mark Id))
    (deps : List Id) (h : all_marks_are_permanent marks = true) :
    g.topoLoop (fuel + 1) marks deps = some (Except.ok deps) := by
  simp only [Graph.topoLoop, h, if_true]

theorem topoLoop_error (g : Graph V E Id) (fuel : Nat) (marks : List (Mark Id))
    (deps : List Id) (uid : Id) (v : Vertex V E Id) (e : Error)
    (hall : all_marks_are_permanent marks = false)
    (hfm : first_unmarked marks = some uid)
    (hs : g.vertices.search uid = Except.ok v)
    (hvn : g.visit_node (g.idList.length + 1) v marks deps
      = some (Except.error e)) :
    g.topoLoop (fuel + 1) marks deps = some (Except.error e) := by
  simp only [Graph.topoLoop, hall, Bool.false_eq_true, if_false, hfm, hs, hvn]

theorem topoLoop_step (g : Graph V E Id) (fuel : Nat) (marks : List (Mark Id))
    (deps : List Id) (uid : Id) (v : Vertex V E Id)
    (marks' : List (Mark Id)) (deps' : List Id)
    (hall : all_marks_are_permanent marks = false)
    (hfm : first_unmarked marks = some uid)
    (hs : g.vertices.search uid = Except.ok v)
    (hvn : g.visit_node (g.idList.length + 1) v marks deps
      = some (Except.ok (marks', deps'))) :
    g.topoLoop (fuel + 1) marks deps = g.topoLoop fuel marks' deps' := by
  simp only [Graph.topoLoop, hall, Bool.false_eq_true, if_false, hfm, hs, hvn]

theorem search_ok_entry {α : Type} (idx : Index Id α) (id : Id) (a : α)
    (h : idx.search id = Except.ok a) : (id, a) ∈ idx.entries := by
  unfold Index.search at h
  rcases hf : idx.entries.find? (fun e => decide (e.1 = id)) with _ | e
  · rw [hf] at h
    exact absurd h (by simp)
  · rw [hf] at h
    have hmem := List.mem_of_find?_eq_some hf
    have hpred := List.find?_some hf
    have h1 : e.1 = id := by simpa using hpred
    have h2 : e.2 = a := by
      injection h
    rw [← h1, ← h2]
    simpa using hmem

/-- The full run of `topological_sort` on a well-formed graph: the loop
terminates within its bound, and the result is either exactly the cycle
error or a duplicate-free sequence containing the start whose members'
outgoing neighbors appear in it strictly later. -/
theorem topological_sort_run (g : Graph V E Id)
    (H1 : ∀ id ∈ g.idList, ∃ v, g.vertices.search id = Except.ok v)
    (H2 : ∀ id v, g.vertices.search id = Except.ok v → Vertex.id v = id)
    (H3 : ∀ id v, g.vertices.search id = Except.ok v →
      ∃ es, v.vicinity = Vicinity.Outgoing es)
    (H4 : ∀ id v, g.vertices.search id = Except.ok v →
      ∀ y ∈ v.outgoingIds, y ∈ g.idList)
    (start : Id) (hstart : start ∈ g.idList) :
    ∃ r, g.topological_sort start = some r ∧
      (r = Except.error (Error.WithMessage "Graph contains cycle")
        ∨ ∃ deps, r = Except.ok deps ∧ start ∈ deps ∧ deps.Nodup
            ∧ ∀ u ∈ deps, ∀ y ∈ g.neighborsOf u,
                y ∈ deps ∧ deps.indexOf u < deps.indexOf y) := by
  obtain ⟨v, hv⟩ := H1 start hstart
  have hvid : v.id = start := H2 start v hv
  have hsearchv : g.vertices.search v.id = Except.ok v := by
    rw [hvid]
    exact hv
  have hInv0 : MarksInv g [Mark.Unmarked start] := by
    constructor
    · simp [marksIds, Mark.markedId]
    · intro id hid
      have : id = start := by simpa [marksIds, Mark.markedId] using hid
      exact this ▸ hstart
  have hGood0 : GOOD g [Mark.Unmarked start] [] := by
    refine ⟨fun id => by simp, List.nodup_nil, fun u hu => absurd hu (by simp)⟩
  have hfuel0 : UCount g [Mark.Unmarked start] + 1 ≤ g.idList.length + 1 := by
    have hle := List.length_filter_le (fun i =>
      decide (¬ (Mark.Temporary i ∈ [Mark.Unmarked start]
        ∨ Mark.Permanent i ∈ [Mark.Unmarked start]))) g.idList
    unfold UCount
    omega
  obtain ⟨r₁, hr₁, hclass⟩ := (visit_spec g H1 H2 H3 H4 (g.idList.length + 1)).1 v
    [Mark.Unmarked start] [] hsearchv hInv0 hGood0 hfuel0
  have hlen : 0 < g.idList.length := List.length_pos.mpr (List.ne_nil_of_mem hstart)
  obtain ⟨k, hk⟩ : ∃ k, g.idList.length = k + 1 := ⟨g.idList.length - 1, by omega⟩
  have hfalse : all_marks_are_permanent [Mark.Unmarked start] = false := rfl
  have hfu : first_unmarked [Mark.Unmarked start] = some start := rfl
  unfold Graph.topological_sort
  rw [hk]
  rcases hclass with hcy | ⟨marks', deps', hok, VC, hP⟩
  · refine ⟨Except.error (Error.WithMessage "Graph contains cycle"), ?_, Or.inl rfl⟩
    subst hcy
    exact topoLoop_error g (k + 1) _ _ start v _ hfalse hfu hv hr₁
  · subst hok
    obtain ⟨hInv', hGood', hPmono, hTiff, horig, hids, hpre, hU⟩ := VC
    have hPs : Mark.Permanent start ∈ marks' := hvid ▸ hP
    have hall : all_marks_are_permanent marks' = true := by
      rw [all_marks_are_permanent_iff]
      intro mk hmk
      rcases horig mk hmk with hmem | hperm
      · exfalso
        have hmk' : mk = Mark.Unmarked start := by simpa using hmem
        have hinj := List.inj_on_of_nodup_map (l := marks') (f := Mark.markedId) hInv'.1
        have heq : Mark.Unmarked start = Mark.Permanent start :=
          hinj (hmk' ▸ hmk) hPs rfl
        cases heq
      · exact hperm
    refine ⟨Except.ok deps', ?_, Or.inr ⟨deps', rfl,
      (hGood'.1 start).mp hPs, hGood'.2.1, hGood'.2.2⟩⟩
    rw [topoLoop_step g (k + 1) _ _ start v marks' deps' hfalse hfu hv hr₁]
    exact topoLoop_done g k marks' deps' hall

/-- C1: on a graph whose index resolves every listed id to a vertex
carrying that id, with outgoing vicinities and in-graph edge targets,
`topological_sort(start)`: (a) whenever it returns a sequence, every
member's outgoing neighbor that the sequence mentions appears strictly
after it (for every edge `u→v` inside the sequence, `u` precedes `v`);
and (b) whenever a cycle is reachable from the start seed, it fails with
exactly the error message "Graph contains cycle". -/
theorem topological_sort_order_or_cycle (g : Graph V E Id)
    (H1 : ∀ id ∈ g.idList, ∃ v, g.vertices.search id = Except.ok v)
    (H2 : ∀ id v, g.vertices.search id = Except.ok v → Vertex.id v = id)
    (H3 : ∀ id v, g.vertices.search id = Except.ok v →
      ∃ es, v.vicinity = Vicinity.Outgoing es)
    (H4 : ∀ id v, g.vertices.search id = Except.ok v →
      ∀ y ∈ v.outgoingIds, y ∈ g.idList)
    (start : Id) (hstart : start ∈ g.idList) :
    (∀ deps, g.topological_sort start = some (Except.ok deps) →
       ∀ u ∈ deps, ∀ y ∈ g.neighborsOf u,
         y ∈ deps ∧ deps.indexOf u < deps.indexOf y)
    ∧ ((∃ c, g.ReachableFrom start c ∧ Relation.TransGen g.stepRel c c) →
       g.topological_sort start
         = some (Except.error (Error.WithMessage "Graph contains cycle"))) := by
  obtain ⟨r, hr, hclass⟩ := topological_sort_run g H1 H2 H3 H4 start hstart
  constructor
  · intro deps hdeps
    rcases hclass with hcyc | ⟨deps', hok, _, _, hcl⟩
    · rw [hcyc] at hr
      rw [hr] at hdeps
      simp at hdeps
    · rw [hok] at hr
      rw [hr] at hdeps
      have hde : deps' = deps := by
        have h2 := Option.some.inj hdeps
        injection h2
      subst hde
      exact hcl
  · rintro ⟨c, hreach, hcyc⟩
    rcases hclass with hc | ⟨deps', hok, hmem, _, hcl⟩
    · rw [hc] at hr
      exact hr
    · exfalso
      have hcov : ∀ t, g.ReachableFrom start t → t ∈ deps' :=
        reachable_mem_closed_set g deps' start hmem (fun a ha b hb => (hcl a ha b hb).1)
      have hcmem : c ∈ deps' := hcov c hreach
      have hchain : ∀ b, Relation.TransGen g.stepRel c b → c ∈ deps' →
          b ∈ deps' ∧ deps'.indexOf c < deps'.indexOf b := by
        intro b h
        induction h with
        | single hstep =>
          intro ha
          exact hcl _ ha _ hstep
        | tail h₁ hstep ih =>
          intro ha
          obtain ⟨hb, hlt⟩ := ih ha
          obtain ⟨hc2, hlt2⟩ := hcl _ hb _ hstep
          exact ⟨hc2, lt_trans hlt hlt2⟩
      obtain ⟨_, hlt⟩ := hchain c hcyc hcmem
      omega

end MarkToolkit

/-- C1 witness: on the `A→B→C→A` cycle graph, `topological_sort(A)`
returns exactly the cycle error. -/
theorem topological_sort_order_or_cycle_witness :
    cycleGraph.topological_sort 0
      = some (Except.error (Error.WithMessage "Graph contains cycle")) := by
  have hH1 : ∀ id ∈ cycleGraph.idList, ∃ v, cycleGraph.vertices.search id = Except.ok v := by
    intro id hid
    have h3 : id = 0 ∨ id = 1 ∨ id = 2 := by
      simpa [cycleGraph, Graph.idList] using hid
    rcases h3 with rfl | rfl | rfl
    · exact ⟨_, rfl⟩
    · exact ⟨_, rfl⟩
    · exact ⟨_, rfl⟩
  have hH2 : ∀ id v, cycleGraph.vertices.search id = Except.ok v → Vertex.id v = id := by
    intro id v h
    have hmem := search_ok_entry _ _ _ h
    simp only [cycleGraph, List.mem_cons, List.not_mem_nil, or_false, Prod.mk.injEq] at hmem
    rcases hmem with ⟨rfl, rfl⟩ | ⟨rfl, rfl⟩ | ⟨rfl, rfl⟩ <;> rfl
  have hH3 : ∀ id v, cycleGraph.vertices.search id = Except.ok v →
      ∃ es, v.vicinity = Vicinity.Outgoing es := by
    intro id v h
    have hmem := search_ok_entry _ _ _ h
    simp only [cycleGraph, List.mem_cons, List.not_mem_nil, or_false, Prod.mk.injEq] at hmem
    rcases hmem with ⟨rfl, rfl⟩ | ⟨rfl, rfl⟩ | ⟨rfl, rfl⟩ <;> exact ⟨_, rfl⟩
  have hH4 : ∀ id v, cycleGraph.vertices.search id = Except.ok v →
      ∀ y ∈ v.outgoingIds, y ∈ cycleGraph.idList := by
    intro id v h y hy
    have hmem := search_ok_entry _ _ _ h
    simp only [cycleGraph, List.mem_cons, List.not_mem_nil, or_false, Prod.mk.injEq] at hmem
    rcases hmem with ⟨rfl, rfl⟩ | ⟨rfl, rfl⟩ | ⟨rfl, rfl⟩ <;>
      · simp [Vertex.outgoingIds, Edge.get_end_id, cycleGraph, Graph.idList] at hy ⊢
        omega
  have s01 : cycleGraph.stepRel 0 1 := by
    show (1 : Nat) ∈ cycleGraph.neighborsOf 0
    decide
  have s12 : cycleGraph.stepRel 1 2 := by
    show (2 : Nat) ∈ cycleGraph.neighborsOf 1
    decide
  have s20 : cycleGraph.stepRel 2 0 := by
    show (0 : Nat) ∈ cycleGraph.neighborsOf 2
    decide
  exact (topological_sort_order_or_cycle cycleGraph hH1 hH2 hH3 hH4 0 (by decide)).2
    ⟨0, Relation.ReflTransGen.refl,
      Relation.TransGen.tail (Relation.TransGen.tail (Relation.TransGen.single s01) s12) s20⟩

end Graphrs
